import Mathlib

/-!
Verification development for the embedding layer of SyntaxSQLNet
(`src/embedding/embeddings.py`).

The Python code is shallowly embedded: tensors become nested lists of
rationals (floating point replaced by exact arithmetic), numpy/torch
shape errors become `Option` failures (`none` models a raised
exception), and the mutable column cache / dynamic vocabulary are
threaded explicitly as state.  Each definition mirrors one Python
function or code block; tokenization (`nltk.word_tokenize`) is an
external collaborator and is passed in as a function parameter `tok`.
-/

/-! ## Basic string utilities

`pySplit` models Python's `str.split()` (split on whitespace runs,
dropping empty fields); `splitOnChar` models `str.split(c)` for a
single-character separator (keeping empty fields); `lowercase` models
`str.lower()` restricted to ASCII-style per-character lowering.
-/

def pySplitAux : List Char → List Char → List String
  | acc, [] => if acc.isEmpty then [] else [String.mk acc.reverse]
  | acc, c :: cs =>
    if c.isWhitespace then
      if acc.isEmpty then pySplitAux [] cs
      else String.mk acc.reverse :: pySplitAux [] cs
    else pySplitAux (c :: acc) cs

def pySplit (s : String) : List String := pySplitAux [] s.data

def splitOnCharAux (sep : Char) : List Char → List Char → List String
  | acc, [] => [String.mk acc.reverse]
  | acc, c :: cs =>
    if c = sep then String.mk acc.reverse :: splitOnCharAux sep [] cs
    else splitOnCharAux sep (c :: acc) cs

def splitOnChar (sep : Char) (s : String) : List String :=
  splitOnCharAux sep [] s.data

def lowercase (s : String) : String := String.mk (s.data.map Char.toLower)

/-- Model of Python `float(s)` restricted to plain decimal literals
(optional minus sign, digits, optional fractional part), which covers
the vector entries appearing in embedding files.  Anything else is a
parse failure (`ValueError`), modelled as `none`. -/
def parseFloat (s : String) : Option ℚ :=
  let withSign : Bool × List Char :=
    match s.data with
    | '-' :: r => (true, r)
    | cs => (false, cs)
  let ip := withSign.2.takeWhile (fun c => ¬ (c = '.'))
  let rest := withSign.2.dropWhile (fun c => ¬ (c = '.'))
  let mag : Option ℚ :=
    match rest with
    | [] =>
      if ip.all Char.isDigit ∧ ¬ ip.isEmpty then
        some ((ip.foldl (fun n c => 10 * n + (c.toNat - 48)) 0 : ℕ) : ℚ)
      else none
    | _ :: fp =>
      if fp.contains '.' then none
      else if ip.all Char.isDigit ∧ fp.all Char.isDigit ∧
              (¬ ip.isEmpty ∨ ¬ fp.isEmpty) then
        some (((ip.foldl (fun n c => 10 * n + (c.toNat - 48)) 0 : ℕ) : ℚ) +
              ((fp.foldl (fun n c => 10 * n + (c.toNat - 48)) 0 : ℕ) : ℚ) /
                ((10 : ℚ) ^ fp.length))
      else none
  mag.map (fun q => if withSign.1 then -q else q)

/-! ## Vectors, matrices, dictionaries -/

abbrev Vec := List ℚ
abbrev Mat := List Vec
abbrev Tens3 := List Mat

def zeroVec (D : ℕ) : Vec := List.replicate D 0

def vecAdd (u v : Vec) : Vec := List.zipWith (· + ·) u v

def vecScale (c : ℚ) (v : Vec) : Vec := v.map (fun x => c * x)

def sumVecs (D : ℕ) (l : List Vec) : Vec := l.foldl vecAdd (zeroVec D)

def matAdd (A B : Mat) : Mat := List.zipWith vecAdd A B

def matScale (c : ℚ) (A : Mat) : Mat := A.map (vecScale c)

/-- `torch.mean(torch.stack l, dim=0)`: elementwise mean of a nonempty
list of equally-shaped matrices (`torch.stack` raises on `[]`, which the
callers guard with `none`). -/
def meanStack (l : List Mat) : Mat :=
  match l with
  | [] => []
  | m :: rest => matScale (1 / (l.length : ℚ)) (rest.foldl matAdd m)

/-- Python `dict` lookup restricted to `String → ℕ` association lists
with unique keys (`d.get(k, default)` is `(dictGet? d k).getD default`). -/
def dictGet? (d : List (String × ℕ)) (k : String) : Option ℕ :=
  (d.find? (fun p => p.1 == k)).map (fun p => p.2)

/-- Sequential map in the `Option` monad (a loop whose body may raise):
fails as soon as one element fails, like the corresponding Python
loops. -/
def mapO {α β : Type} (f : α → Option β) : List α → Option (List β)
  | [] => some []
  | x :: xs => (f x).bind (fun y => (mapO f xs).map (fun ys => y :: ys))

/-! ## Static vocabulary table: `GloveEmbedding.__init__`

The loop over the file keeps 1-based line numbers (`enumerate(f, 1)`)
as the dictionary values, retains only new tokens whose vector has
exactly 300 fields (the hard-coded `len(vector)==300` check), then
inserts `'<unknown>' : 0` and a zero row at the front of the vector
list.  `vectors[0]` on an empty list (no line retained) raises
`IndexError`, and the later `Embedding.weight.data.copy_` raises when
the matrix row count differs from `len(word2idx)`; both are `none`.
-/

structure GloveState where
  num_embeddings : ℕ
  embedding_dim : ℕ
  word2idx : List (String × ℕ)
  vectors : Mat
  deriving Repr, DecidableEq

/-- One iteration of the loader loop on the whitespace-split fields of
line number `idx`: an empty line raises (`line[0]` on `[]`), a new token
with exactly 300 vector fields is parsed and appended with value `idx`
(parse failure raises), any other line leaves the accumulators
unchanged. -/
def gloveLine (idx : ℕ) (w2i : List (String × ℕ)) (vecs : Mat) :
    List String → Option (List (String × ℕ) × Mat)
  | [] => none
  | token :: vstrs =>
    if vstrs.length = 300 ∧ dictGet? w2i token = none then
      (mapO parseFloat vstrs).map
        (fun v => (w2i ++ [(token, idx)], vecs ++ [v]))
    else some (w2i, vecs)

def gloveLoadAux : ℕ → List (String × ℕ) → Mat → List String →
    Option (List (String × ℕ) × Mat)
  | _, w2i, vecs, [] => some (w2i, vecs)
  | idx, w2i, vecs, linee :: rest =>
    (gloveLine idx w2i vecs (pySplit linee)).bind (fun acc =>
      gloveLoadAux (idx + 1) acc.1 acc.2 rest)

/-- `word2idx['<unknown>'] = 0`: dict assignment (overwrite if present,
append otherwise). -/
def dictInsert (d : List (String × ℕ)) (k : String) (v : ℕ) :
    List (String × ℕ) :=
  if d.any (fun p => p.1 == k) then
    d.map (fun p => if p.1 == k then (k, v) else p)
  else d ++ [(k, v)]

/-- The remainder of the constructor after the line loop: insert
`'<unknown>' : 0` into the dictionary and a zero row (of the first
retained vector's width) at the front of the matrix; `vectors[0]` on an
empty list raises (the `head?.bind`), and the `Embedding` weight
`copy_` raises when the final matrix shape differs from
`(len(word2idx), len(vectors[0]))` (the `if`). -/
def gloveInit (lines : List String) : Option GloveState :=
  (gloveLoadAux 1 [] [] lines).bind (fun lw =>
    lw.2.head?.bind (fun v0 =>
      if (zeroVec v0.length :: lw.2).length =
          (dictInsert lw.1 "<unknown>" 0).length ∧
          (zeroVec v0.length :: lw.2).all (fun v => v.length = v0.length) then
        some ⟨(dictInsert lw.1 "<unknown>" 0).length, v0.length,
          dictInsert lw.1 "<unknown>" 0, zeroVec v0.length :: lw.2⟩
      else none))

/-! ## Batch embedding: `PretrainedEmbedding.forward` -/

/-- `self.word2idx.get(word, 0)`. -/
def lookupIdx (w2i : List (String × ℕ)) (w : String) : ℕ :=
  (dictGet? w2i w).getD 0

def tokenized (tok : String → List String) (sentences : List String) :
    List (List String) :=
  sentences.map (fun s => tok (lowercase s))

def maxLenOf (ws : List (List String)) : ℕ :=
  (ws.map List.length).foldl max 0

/-- `forward(sentences, mean_sequence=False)`: lowercase, tokenize, pad
token indices to the batch maximum with index 0, and look every index up
in the embedding matrix (`none` models an out-of-range index or the
`max` of an empty batch raising). -/
def forwardEmb (tok : String → List String) (w2i : List (String × ℕ))
    (vectors : Mat) (sentences : List String) : Option (Tens3 × List ℕ) :=
  match sentences with
  | [] => none
  | _ :: _ =>
    let words := tokenized tok sentences
    let lengths := words.map List.length
    let maxLen := maxLenOf words
    let indices := words.map (fun ws =>
      ws.map (lookupIdx w2i) ++ List.replicate (maxLen - ws.length) 0)
    (mapO (fun (row : List ℕ) =>
        mapO (fun i => vectors.get? i) row) indices).map
      (fun emb => (emb, lengths))

/-- `a / b` on floats where division by zero yields NaN; modelled as
failure. -/
def bdiv (a b : ℚ) : Option ℚ := if b = 0 then none else some (a / b)

/-- Numpy/torch broadcasting of `m / v` for a 2-D tensor `m` of shape
`[B, D]` and a 1-D tensor `v` of shape `[L]`: `v` is treated as shape
`[1, L]`, so the division is defined only when `L = D`, `L = 1`, or
`D = 1`; otherwise a RuntimeError is raised (`none`). -/
def broadcastDiv (m : Mat) (v : List ℚ) : Option Mat :=
  let D := (m.headD []).length
  if v.length = D then
    mapO (fun (row : Vec) => mapO (fun p => bdiv p.1 p.2) (row.zip v)) m
  else if v.length = 1 then
    mapO (fun (row : Vec) => mapO (fun a => bdiv a (v.headD 0)) row) m
  else if D = 1 then
    mapO (fun (row : Vec) => mapO (fun d => bdiv (row.headD 0) d) v) m
  else none

/-- `forward(sentences, mean_sequence=True)`:
`torch.sum(word_embeddings, dim=1) / torch.tensor(lenghts).float()`. -/
def forwardMean (tok : String → List String) (w2i : List (String × ℕ))
    (vectors : Mat) (D : ℕ) (sentences : List String) :
    Option (Mat × List ℕ) :=
  (forwardEmb tok w2i vectors sentences).bind (fun el =>
    (broadcastDiv (el.1.map (sumVecs D)) (el.2.map (fun n => (n : ℚ)))).map
      (fun m => (m, el.2)))

/-! ## `PretrainedEmbedding.embed_token` -/

/-- The body of `embed_token`'s outer loop for one whitespace-separated
word: embed each nonempty underscore-separated part with
`mean_sequence=True` (a single-string call to `forward` wraps it in a
one-sentence batch) and mean the part embeddings; `torch.stack` on an
empty part list raises (`none`). -/
def embedWord (tok : String → List String) (w2i : List (String × ℕ))
    (vectors : Mat) (D : ℕ) (word : String) : Option Mat :=
  (mapO (fun (el : String) =>
        (forwardMean tok w2i vectors D [el]).map (fun r => r.1))
      ((splitOnChar '_' word).filter (fun e => ¬ (e = "")))).bind
    (fun embList =>
      match embList with
      | [] => none
      | _ :: _ => some (meanStack embList))

/-- `embed_token(token)`: split on whitespace, process each word with
`embedWord`, then mean the word embeddings (the two-level mean);
`torch.stack` on an empty word list raises (`none`). -/
def embedToken (tok : String → List String) (w2i : List (String × ℕ))
    (vectors : Mat) (D : ℕ) (token : String) : Option Mat :=
  (mapO (embedWord tok w2i vectors D) (pySplit token)).bind
    (fun embs =>
      match embs with
      | [] => none
      | _ :: _ => some (meanStack embs))

/-! ## Column embedding and its cache: `PretrainedEmbedding.get_columns_emb`

The cache key `str(db)` of a joined-column list is injective on lists of
strings (Python `repr`), so the cache is modelled as an association list
keyed by the joined list itself, newest entry first (a later `dict`
store shadows an older one, which never happens because stores occur
only after a failed lookup).  Caching threads the cache value through;
the returned `ℕ` counts how many times `self(column)` — the embedding
backend — was invoked.
-/

abbrev CacheEntry := Tens3 × List ℚ

abbrev Cache := List (List String × CacheEntry)

def lookupCache (c : Cache) (k : List String) : Option CacheEntry :=
  (c.find? (fun p => p.1 == k)).map (fun p => p.2)

def joinColumn (col : List String) : String := String.intercalate " " col

/-- One miss-path column: `emb, col_name_len = self(column)` followed by
`embeddings[i,j,:int(col_name_len),:] = emb`.  Fails (`none`) when the
token count exceeds `maxTok`, which in torch is a shape mismatch between
the clipped slice and `emb`. -/
def embedColumnMiss (tok : String → List String) (w2i : List (String × ℕ))
    (vectors : Mat) (D maxTok : ℕ) (column : String) : Option (Mat × ℕ) :=
  (forwardEmb tok w2i vectors [column]).bind (fun r =>
    match r with
    | ([m], [L]) =>
      if L ≤ maxTok then some (m ++ List.replicate (maxTok - L) (zeroVec D), L)
      else none
    | _ => none)

/-- The miss path for one batch item `i`: embed every column of the db
into rows `0..db.length` of a zero tensor of shape
`[maxLen, maxTok, D]`, recording each column's token count. -/
def missDB (tok : String → List String) (w2i : List (String × ℕ))
    (vectors : Mat) (D maxLen maxTok : ℕ) (db : List String) :
    Option CacheEntry :=
  if db.length ≤ maxLen then
    (mapO (embedColumnMiss tok w2i vectors D maxTok) db).map (fun rows =>
      (rows.map (fun r => r.1) ++
         List.replicate (maxLen - db.length) (List.replicate maxTok (zeroVec D)),
       rows.map (fun r => ((r.2 : ℕ) : ℚ)) ++
         List.replicate (maxLen - db.length) 0))
  else none

/-- The hit path for one batch item: copy the cached tensor into the
zero-initialised output over the minimum of the cached and current
sizes in both the column dimension and the token dimension
(`embeddings[i,:min_size1,:min_size2,:] = cached_emb[:min_size1,:min_size2,:]`
and `col_name_lengths[i,:min_size1] = np.minimum(cached_lengths, max_col_name_len)[:min_size1]`). -/
def hitCopy (D maxLen maxTok : ℕ) (cemb : Tens3) (clens : List ℚ) :
    CacheEntry :=
  let m1 := min cemb.length maxLen
  let m2 := min (cemb.headD []).length maxTok
  ((cemb.take m1).map (fun (row : Mat) =>
      row.take m2 ++ List.replicate (maxTok - m2) (zeroVec D)) ++
     List.replicate (maxLen - m1) (List.replicate maxTok (zeroVec D)),
   ((clens.map (fun x => min x (maxTok : ℚ))).take m1) ++
     List.replicate (maxLen - m1) 0)

/-- One iteration of the loop over `columns_joined`: cache hit copies
and continues (zero backend calls); cache miss embeds each column
(`db.length` backend calls) and, when caching is enabled, stores the
item's slice. -/
def processDB (tok : String → List String) (w2i : List (String × ℕ))
    (vectors : Mat) (D : ℕ) (useCache : Bool) (maxLen maxTok : ℕ)
    (cache : Cache) (db : List String) :
    Option (CacheEntry × Cache × ℕ) :=
  match lookupCache cache db with
  | some e => some (hitCopy D maxLen maxTok e.1 e.2, cache, 0)
  | none =>
    (missDB tok w2i vectors D maxLen maxTok db).map (fun out =>
      (out, if useCache then (db, out) :: cache else cache, db.length))

/-- The whole loop over the batch, threading the cache and summing the
backend invocation counts. -/
def processAll (tok : String → List String) (w2i : List (String × ℕ))
    (vectors : Mat) (D : ℕ) (useCache : Bool) (maxLen maxTok : ℕ)
    (cache : Cache) : List (List String) →
    Option (List CacheEntry × Cache × ℕ)
  | [] => some ([], cache, 0)
  | db :: rest =>
    (processDB tok w2i vectors D useCache maxLen maxTok cache db).bind
      (fun step =>
        (processAll tok w2i vectors D useCache maxLen maxTok step.2.1 rest).map
          (fun restOut =>
            (step.1 :: restOut.1, restOut.2.1, step.2.2 + restOut.2.2)))

/-- `get_columns_emb(columns)`.  `max` of an empty batch or of an empty
per-db column list raises (`none`).  Note that `max_col_name_len` is
computed by tokenizing the joined column names *without* lowercasing
(line 143), while the per-column embeddings tokenize the lowercased
string (inside `forward`). -/
def getColumnsEmb (tok : String → List String) (w2i : List (String × ℕ))
    (vectors : Mat) (D : ℕ) (useCache : Bool) (cache : Cache)
    (columns : List (List (List String))) :
    Option ((List Tens3 × List ℕ × List (List ℚ)) × Cache × ℕ) :=
  match columns with
  | [] => none
  | _ :: _ =>
    let lengths := columns.map List.length
    let joined := columns.map (fun db => db.map joinColumn)
    let cnl := joined.map (fun db => db.map (fun c => (tok c).length))
    if cnl.any (fun l => l.isEmpty) then none
    else
      let maxLen := lengths.foldl max 0
      let maxTok := (cnl.map (fun l => l.foldl max 0)).foldl max 0
      (processAll tok w2i vectors D useCache maxLen maxTok cache joined).map
        (fun r =>
          ((r.1.map (fun e => e.1), lengths, r.1.map (fun e => e.2)),
           r.2.1, r.2.2))

/-! ## Dynamic vocabulary: `LaserEmbedding.forward`

`word2idx` grows by dict insertion with value `len(word2idx)`, and the
external embedder's result is appended to `vectors`.  The second return
component is the invocation log: the arguments on which the external
embedder was called, in order.  Tensor construction
(`torch.tensor(word_embeddings)`) is modelled shape-explicitly, since
`squeeze`/`unsqueeze` act on shapes: a tensor is a (shape, row-major
data) pair, and `torch.tensor` of nested lists of numpy arrays succeeds
only when all leaf arrays share one shape.
-/

structure LaserState where
  word2idx : List (String × ℕ)
  vectors : Mat
  deriving Repr, DecidableEq

/-- The vocabulary-growth loop (lines 334-338): for each token in
order, an unseen token is assigned index `len(word2idx)` and the
embedder is invoked once on it. -/
def laserGrow (embedder : String → Vec) : LaserState → List String →
    LaserState × List String
  | st, [] => (st, [])
  | st, w :: ws =>
    if (dictGet? st.word2idx w).isSome then laserGrow embedder st ws
    else
      let st1 : LaserState :=
        ⟨st.word2idx ++ [(w, st.word2idx.length)], st.vectors ++ [embedder w]⟩
      let rec1 := laserGrow embedder st1 ws
      (rec1.1, w :: rec1.2)

/-- A leaf array together with its numpy shape: a stored vector is
reshaped to `(len,)` by `.reshape(-1)`, a padding entry is
`np.zeros((1, D))` of shape `(1, D)`. -/
abbrev LeafArr := List ℕ × Vec

def laserEntry (st : LaserState) (w : String) : Option LeafArr :=
  (st.vectors.get? (lookupIdx st.word2idx w)).map (fun v => ([v.length], v))

def laserSentenceEntries (st : LaserState) (D maxLen : ℕ)
    (ws : List String) : Option (List LeafArr) :=
  (mapO (laserEntry st) ws).map (fun es =>
    es ++ List.replicate (maxLen - ws.length)
      (([1, D] : List ℕ), zeroVec D))

/-- `torch.tensor` on a flat list of leaf arrays: requires one common
leaf shape. -/
def torchTensor1 (entries : List LeafArr) : Option (List ℕ × Vec) :=
  match entries with
  | [] => some ([0], [])
  | e0 :: _ =>
    if entries.all (fun e => e.1 == e0.1) then
      some (entries.length :: e0.1, (entries.map (fun e => e.2)).flatten)
    else none

/-- Stacking the per-sentence tensors produced by `torchTensor1` into
one tensor with leading dimension `B`: requires one common shape. -/
def stackShapes (B : ℕ) : List (List ℕ × Vec) → Option (List ℕ × Vec)
  | [] => none
  | t0 :: rest =>
    if (t0 :: rest).all (fun t => t.1 == t0.1) then
      some (B :: t0.1, ((t0 :: rest).map (fun t => t.2)).flatten)
    else none

/-- `torch.tensor` on a nested list (batch of sentences of leaf
arrays): requires equal row lengths and one common leaf shape. -/
def torchTensor2 : List (List LeafArr) → Option (List ℕ × Vec)
  | [] => some ([0], [])
  | r0 :: rest =>
    if (r0 :: rest).all (fun r => r.length = r0.length) then
      (mapO torchTensor1 (r0 :: rest)).bind
        (stackShapes (r0 :: rest).length)
    else none

/-- `.squeeze()` removes every dimension of size 1; the subsequent
`if len(shape) < 3: unsqueeze(0)` re-adds a leading dimension. -/
def laserPost (t : List ℕ × Vec) : List ℕ × Vec :=
  let s := t.1.filter (fun d => ¬ (d = 1))
  if s.length < 3 then (1 :: s, t.2) else (s, t.2)

/-- `LaserEmbedding.forward`.  Returns the state after vocabulary
growth, the embedder invocation log, and `some (tensor, lengths)` on
success (`none` models the exceptions raised after the state has
already been mutated, e.g. ragged `torch.tensor` input when sentences
have unequal token counts). -/
def laserForward (embedder : String → Vec) (tok : String → List String)
    (D : ℕ) (st : LaserState) (sentences : List String)
    (meanSeq : Bool) : LaserState × List String × Option ((List ℕ × Vec) × List ℕ) :=
  match sentences with
  | [] => (st, [], none)
  | _ :: _ =>
    let sw := tokenized tok sentences
    let lengths := sw.map List.length
    let maxLen := maxLenOf sw
    if meanSeq then
      let entries := sentences.map (fun s =>
        let v := embedder (lowercase s)
        (([v.length] : List ℕ), v))
      (st, sentences.map lowercase,
       (torchTensor1 entries).map (fun t => (laserPost t, lengths)))
    else
      let grown := laserGrow embedder st sw.flatten
      (grown.1, grown.2,
       ((mapO (laserSentenceEntries grown.1 D maxLen) sw).bind
           torchTensor2).map (fun t => (laserPost t, lengths)))

/-! ## General list helpers -/

set_option maxRecDepth 100000

theorem mapO_none_of_mem {α β : Type} (f : α → Option β)
    (l : List α) (a : α) (hmem : a ∈ l) (hnone : f a = none) :
    mapO f l = none := by
  induction l with
  | nil => cases hmem
  | cons x xs ih =>
    rcases List.mem_cons.mp hmem with h | h
    · subst h
      simp [mapO, hnone]
    · cases hx : f x <;> simp [mapO, hx, ih h]

theorem mapO_eq_map {α β : Type} (f : α → Option β) (g : α → β)
    (l : List α) (h : ∀ x ∈ l, f x = some (g x)) :
    mapO f l = some (l.map g) := by
  induction l with
  | nil => simp [mapO]
  | cons x xs ih =>
    simp [mapO, h x (List.mem_cons_self x xs),
      ih (fun y hy => h y (List.mem_cons_of_mem x hy))]

theorem foldl_max_init_le (l : List ℕ) (b : ℕ) : b ≤ l.foldl max b := by
  induction l generalizing b with
  | nil => simp
  | cons x xs ih => exact le_trans (le_max_left b x) (ih (max b x))

theorem mem_le_foldl_max (l : List ℕ) (a : ℕ) (h : a ∈ l) :
    ∀ b, a ≤ l.foldl max b := by
  induction l with
  | nil => cases h
  | cons x xs ih =>
    intro b
    rcases List.mem_cons.mp h with rfl | h
    · exact le_trans (le_max_right b a) (foldl_max_init_le xs _)
    · exact ih h _

/-! ## Claim C1 -/

/-- Claim C1 (code bug): the loader keeps only lines whose vector has
exactly 300 fields — `len(vector)==300` is hard-coded (line 261) even
though the default path is the 50-dimensional `glove.6B.50d.txt` — so
on the claimed file with dimension-3 vectors both lines are dropped and
the constructor crashes (`vectors[0]` on an empty list) instead of
yielding `num_embeddings = 3`, `embedding_dim = 3`. -/
theorem glove_dim3_file_crashes :
    gloveInit ["cat 0.1 0.2 0.3", "dog 0.4 0.5 0.6"] = none := by decide

/-! ## Claim C3 -/

/-- Claim C3 (code bug): with `mean_sequence=True` the code divides the
summed tensor of shape `[batch, embedding_dim]` by the 1-D length
tensor of shape `[batch]`; broadcasting aligns the lengths with the
*embedding* dimension, so for a batch of two sentences and
`embedding_dim = 3` the division raises a RuntimeError instead of
producing the per-sentence means the claim describes. -/
theorem forward_mean_broadcast_failure :
    forwardMean pySplit [("a", 1), ("b", 2), ("c", 3)]
      [[0, 0, 0], [1, 0, 0], [0, 1, 0], [0, 0, 1]] 3 ["a b", "c"] = none := by
  decide

/-! ## Claim C10 -/

/-- Claim C10: `embed_token` fails with an exception (modelled `none`)
whenever its argument splits to no words at all (empty or
whitespace-only input) or contains a whitespace-separated word whose
underscore-split parts are all empty (a word made of underscores): in
both cases a `torch.stack([])` call raises. -/
theorem embed_token_degenerate_raises (tok : String → List String)
    (w2i : List (String × ℕ)) (vectors : Mat) (D : ℕ) (token : String)
    (h : pySplit token = [] ∨
      ∃ w ∈ pySplit token,
        (splitOnChar '_' w).filter (fun e => ¬ (e = "")) = []) :
    embedToken tok w2i vectors D token = none := by
  rcases h with h | ⟨w, hw, hparts⟩
  · simp [embedToken, h, mapO]
  · have hnone : embedWord tok w2i vectors D w = none := by
      unfold embedWord
      rw [hparts]
      rfl
    unfold embedToken
    rw [mapO_none_of_mem _ (pySplit token) w hw hnone]
    rfl

/-- Concrete instances of C10: the empty string, a whitespace-only
string, and a token containing the all-underscore word `"___"` each
make `embed_token` raise. -/
theorem embed_token_degenerate_witness :
    embedToken pySplit [("a", 1)] [[0], [1]] 1 "" = none ∧
    embedToken pySplit [("a", 1)] [[0], [1]] 1 "   " = none ∧
    embedToken pySplit [("a", 1)] [[0], [1]] 1 "a ___" = none :=
  ⟨embed_token_degenerate_raises _ _ _ _ _ (Or.inl (by decide)),
   embed_token_degenerate_raises _ _ _ _ _ (Or.inl (by decide)),
   embed_token_degenerate_raises _ _ _ _ _
     (Or.inr ⟨"___", by decide, by decide⟩)⟩

/-! ## Claim C7 -/

theorem mapO_get?_eq {α : Type} (v : List α) (row : List ℕ) (d : α)
    (h : ∀ i ∈ row, i < v.length) :
    mapO (fun i => v.get? i) row = some (row.map (fun i => v.getD i d)) := by
  apply mapO_eq_map
  intro i hi
  rw [List.getD_eq_getElem _ _ (h i hi), List.get?_eq_getElem?,
    List.getElem?_eq_getElem (h i hi)]

theorem lookupIdx_lt (w2i : List (String × ℕ)) (vectors : Mat)
    (hidx : ∀ p ∈ w2i, p.2 < vectors.length) (h0 : 0 < vectors.length)
    (w : String) : lookupIdx w2i w < vectors.length := by
  unfold lookupIdx dictGet?
  cases hf : w2i.find? (fun p => p.1 == w) with
  | none => simpa using h0
  | some p =>
    have hp := List.mem_of_find?_eq_some hf
    simpa using hidx p hp

/-- Claim C7: for every non-empty batch, `forward` with
`mean_sequence=False` returns a tensor whose first two dimensions are
`(batch_size, max_token_count_in_batch)` together with a lengths vector
of size `batch_size`, `lengths[i]` is the true token count of sentence
`i` and never exceeds the second dimension, and every padding position
(`j ≥ lengths[i]`) holds the zero vector.  The hypotheses state the
vocabulary invariants the spec guarantees: index 0 carries the zero
vector and every vocabulary index is in range of the matrix. -/
theorem forward_shape_and_zero_padding
    (tok : String → List String) (w2i : List (String × ℕ)) (vectors : Mat)
    (D : ℕ) (sentences : List String)
    (hne : sentences ≠ [])
    (hvec0 : vectors.get? 0 = some (zeroVec D))
    (hidx : ∀ p ∈ w2i, p.2 < vectors.length) :
    ∃ emb lengths, forwardEmb tok w2i vectors sentences = some (emb, lengths) ∧
      emb.length = sentences.length ∧
      lengths.length = sentences.length ∧
      (∀ mat ∈ emb, mat.length = maxLenOf (tokenized tok sentences)) ∧
      (∀ i, i < sentences.length →
        lengths.getD i 0 = ((tokenized tok sentences).getD i []).length ∧
        lengths.getD i 0 ≤ maxLenOf (tokenized tok sentences)) ∧
      (∀ i j, i < sentences.length → lengths.getD i 0 ≤ j →
        j < maxLenOf (tokenized tok sentences) →
        (emb.getD i []).getD j [] = zeroVec D) := by
  have h0 : 0 < vectors.length := by
    cases vectors with
    | nil => simp [List.get?] at hvec0
    | cons v vs => simp
  have hz : vectors.getD 0 [] = zeroVec D := by
    rw [List.getD_eq_getD_get?, hvec0]
    rfl
  cases sentences with
  | nil => exact absurd rfl hne
  | cons s0 srest =>
    have hlt : ∀ t ∈ tokenized tok (s0 :: srest), ∀ i ∈
        t.map (lookupIdx w2i) ++
          List.replicate (maxLenOf (tokenized tok (s0 :: srest)) - t.length) 0,
        i < vectors.length := by
      intro t _ i hi
      rcases List.mem_append.mp hi with hi | hi
      · rcases List.mem_map.mp hi with ⟨w, _, rfl⟩
        exact lookupIdx_lt w2i vectors hidx h0 w
      · rw [List.eq_of_mem_replicate hi]
        exact h0
    have houter :
        mapO (fun (row : List ℕ) => mapO (fun i => vectors.get? i) row)
          ((tokenized tok (s0 :: srest)).map (fun t =>
            t.map (lookupIdx w2i) ++
              List.replicate (maxLenOf (tokenized tok (s0 :: srest)) - t.length) 0)) =
        some (((tokenized tok (s0 :: srest)).map (fun t =>
            t.map (lookupIdx w2i) ++
              List.replicate (maxLenOf (tokenized tok (s0 :: srest)) - t.length) 0)).map
          (fun (row : List ℕ) => row.map (fun i => vectors.getD i []))) := by
      apply mapO_eq_map
      intro row hrow
      rcases List.mem_map.mp hrow with ⟨t, ht, rfl⟩
      exact mapO_get?_eq vectors _ [] (hlt t ht)
    have hfe : forwardEmb tok w2i vectors (s0 :: srest) =
        some ((((tokenized tok (s0 :: srest)).map (fun t =>
            t.map (lookupIdx w2i) ++
              List.replicate (maxLenOf (tokenized tok (s0 :: srest)) - t.length) 0)).map
          (fun (row : List ℕ) => row.map (fun i => vectors.getD i []))),
          (tokenized tok (s0 :: srest)).map List.length) := by
      show (mapO (fun (row : List ℕ) =>
          mapO (fun i => vectors.get? i) row)
          ((tokenized tok (s0 :: srest)).map (fun t =>
            t.map (lookupIdx w2i) ++
              List.replicate (maxLenOf (tokenized tok (s0 :: srest)) - t.length) 0))).map
          (fun emb => (emb, (tokenized tok (s0 :: srest)).map List.length)) = _
      rw [houter]
      rfl
    refine ⟨_, _, hfe, ?_, ?_, ?_, ?_, ?_⟩
    · simp [tokenized]
    · simp [tokenized]
    · intro mat hmat
      rcases List.mem_map.mp hmat with ⟨row, hrow, rfl⟩
      rcases List.mem_map.mp hrow with ⟨t, ht, rfl⟩
      have hle : t.length ≤ maxLenOf (tokenized tok (s0 :: srest)) := by
        apply mem_le_foldl_max
        exact List.mem_map.mpr ⟨t, ht, rfl⟩
      simp [List.length_append]
      omega
    · intro i hi
      have hi' : i < (tokenized tok (s0 :: srest)).length := by
        simpa [tokenized] using hi
      constructor
      · rw [List.getD_eq_getElem _ _ (by simpa using hi'),
          List.getD_eq_getElem _ _ hi', List.getElem_map]
      · rw [List.getD_eq_getElem _ _ (by simpa using hi'), List.getElem_map]
        apply mem_le_foldl_max
        exact List.mem_map.mpr ⟨_, List.getElem_mem _, rfl⟩
    · intro i j hi hji hjm
      have hi' : i < (tokenized tok (s0 :: srest)).length := by
        simpa [tokenized] using hi
      have hji' :
          ((tokenized tok (s0 :: srest))[i]).length ≤ j := by
        rw [List.getD_eq_getElem _ _ (by simpa using hi'),
          List.getElem_map] at hji
        exact hji
      have hrow : (((tokenized tok (s0 :: srest)).map (fun t =>
            t.map (lookupIdx w2i) ++
              List.replicate (maxLenOf (tokenized tok (s0 :: srest)) - t.length) 0)).map
          (fun (row : List ℕ) => row.map (fun i => vectors.getD i []))).getD i [] =
          (((tokenized tok (s0 :: srest))[i]).map (lookupIdx w2i) ++
            List.replicate
              (maxLenOf (tokenized tok (s0 :: srest)) -
                ((tokenized tok (s0 :: srest))[i]).length) 0).map
            (fun i => vectors.getD i []) := by
        rw [List.getD_eq_getElem _ _ (by simpa using hi'), List.getElem_map,
          List.getElem_map]
      rw [hrow]
      have hle : ((tokenized tok (s0 :: srest))[i]).length ≤
          maxLenOf (tokenized tok (s0 :: srest)) := by
        apply mem_le_foldl_max
        exact List.mem_map.mpr ⟨_, List.getElem_mem _, rfl⟩
      have hrowlen :
          (((tokenized tok (s0 :: srest))[i]).map (lookupIdx w2i) ++
            List.replicate
              (maxLenOf (tokenized tok (s0 :: srest)) -
                ((tokenized tok (s0 :: srest))[i]).length) 0).length =
          maxLenOf (tokenized tok (s0 :: srest)) := by
        simp [List.length_append]
        omega
      rw [List.getD_eq_getElem _ _ (by rw [List.length_map, hrowlen]; exact hjm),
        List.getElem_map, List.getElem_append_right (by simpa using hji'),
        List.getElem_replicate]
      exact hz

/-- Concrete instance of C7 at the two-sentence batch
`["a b", "c"]` over a three-word vocabulary. -/
theorem forward_shape_and_zero_padding_witness :
    ∃ emb lengths,
      forwardEmb pySplit [("a", 1), ("b", 2), ("c", 3)]
        [[0, 0, 0], [1, 0, 0], [0, 1, 0], [0, 0, 1]] ["a b", "c"] =
        some (emb, lengths) ∧
      emb.length = (["a b", "c"] : List String).length ∧
      lengths.length = (["a b", "c"] : List String).length ∧
      (∀ mat ∈ emb, mat.length = maxLenOf (tokenized pySplit ["a b", "c"])) ∧
      (∀ i, i < (["a b", "c"] : List String).length →
        lengths.getD i 0 = ((tokenized pySplit ["a b", "c"]).getD i []).length ∧
        lengths.getD i 0 ≤ maxLenOf (tokenized pySplit ["a b", "c"])) ∧
      (∀ i j, i < (["a b", "c"] : List String).length → lengths.getD i 0 ≤ j →
        j < maxLenOf (tokenized pySplit ["a b", "c"]) →
        (emb.getD i []).getD j [] = zeroVec 3) :=
  forward_shape_and_zero_padding pySplit _ _ 3 _ (by decide) (by decide)
    (by decide)

/-! ## Claim C6 -/

theorem vecAdd_zero_left (v : Vec) : vecAdd (zeroVec v.length) v = v := by
  induction v with
  | nil => rfl
  | cons x xs ih =>
    simpa [vecAdd, zeroVec, List.replicate_succ] using ih

theorem sumVecs_single (D : ℕ) (v : Vec) (h : v.length = D) :
    sumVecs D [v] = v := by
  subst h
  show vecAdd (zeroVec v.length) v = v
  exact vecAdd_zero_left v

theorem mapO_some {α : Type} (l : List α) :
    mapO (fun a => some a) l = some l := by
  induction l with
  | nil => rfl
  | cons x xs ih => simp [mapO, ih]

theorem mapO_bdiv_one (row : Vec) :
    mapO (fun a => bdiv a 1) row = some row := by
  have h : (fun (a : ℚ) => bdiv a 1) = (fun a => some a) := by
    funext a
    simp [bdiv]
  rw [h, mapO_some]

theorem broadcastDiv_single_row (row : Vec) :
    broadcastDiv [row] [1] = some [row] := by
  match row with
  | [] => rfl
  | [a] => simp [broadcastDiv, mapO, bdiv, List.zip]
  | a :: b :: bs =>
    simp [broadcastDiv, mapO, bdiv, mapO_some, Nat.succ_ne_zero]

theorem forwardMean_single (tok : String → List String)
    (w2i : List (String × ℕ)) (vectors : Mat) (D : ℕ) (s w : String)
    (vw : Vec) (htok : tok (lowercase s) = [w])
    (hvec : vectors.get? (lookupIdx w2i w) = some vw)
    (hdim : vw.length = D) :
    forwardMean tok w2i vectors D [s] = some ([vw], [1]) := by
  have hvec' : vectors[lookupIdx w2i w]? = some vw := by
    rw [← List.get?_eq_getElem?]
    exact hvec
  have hfe : forwardEmb tok w2i vectors [s] = some ([[vw]], [1]) := by
    simp [forwardEmb, tokenized, htok, maxLenOf, mapO, hvec']
  simp [forwardMean, hfe, sumVecs_single D vw hdim, broadcastDiv_single_row]

theorem vecScale_one (v : Vec) : vecScale 1 v = v := by
  simp [vecScale]

theorem matScale_one (A : Mat) : matScale 1 A = A := by
  induction A with
  | nil => rfl
  | cons v vs ih =>
    show vecScale 1 v :: matScale 1 vs = v :: vs
    rw [vecScale_one, ih]

theorem meanStack_single (m : Mat) : meanStack [m] = m := by
  show matScale (1 / ((1 : ℕ) : ℚ)) m = m
  norm_num [matScale_one]

theorem meanStack_pair (A B : Mat) :
    meanStack [A, B] = matScale (1 / 2) (matAdd A B) := by
  show matScale (1 / ((2 : ℕ) : ℚ)) (matAdd A B) = _
  norm_num

/-- Claim C6: `embed_token` splits on whitespace then on underscores,
embeds each nonempty part with `mean_sequence=True`, and averages first
within words then across words, so `embed_token("a_b c")` is
`mean(mean(vec a, vec b), vec c)`.  Hypotheses: the tokenizer returns
each single word unchanged, and the vocabulary resolves `a`, `b`, `c`
to vectors of the embedding dimension. -/
theorem embed_token_two_level_mean
    (tok : String → List String) (w2i : List (String × ℕ)) (vectors : Mat)
    (D : ℕ) (va vb vc : Vec)
    (hta : tok (lowercase "a") = ["a"])
    (htb : tok (lowercase "b") = ["b"])
    (htc : tok (lowercase "c") = ["c"])
    (hva : vectors.get? (lookupIdx w2i "a") = some va)
    (hvb : vectors.get? (lookupIdx w2i "b") = some vb)
    (hvc : vectors.get? (lookupIdx w2i "c") = some vc)
    (hda : va.length = D) (hdb : vb.length = D) (hdc : vc.length = D) :
    embedToken tok w2i vectors D "a_b c" =
      some [vecScale (1 / 2) (vecAdd (vecScale (1 / 2) (vecAdd va vb)) vc)] := by
  have h1 := forwardMean_single tok w2i vectors D "a" "a" va hta hva hda
  have h2 := forwardMean_single tok w2i vectors D "b" "b" vb htb hvb hdb
  have h3 := forwardMean_single tok w2i vectors D "c" "c" vc htc hvc hdc
  have hwa : embedWord tok w2i vectors D "a_b" =
      some [vecScale (1 / 2) (vecAdd va vb)] := by
    unfold embedWord
    rw [(by decide :
      (splitOnChar '_' "a_b").filter (fun e => ¬ (e = "")) = ["a", "b"])]
    simp [mapO, h1, h2, meanStack_pair, matAdd, matScale]
  have hwc : embedWord tok w2i vectors D "c" =
      some [vc] := by
    unfold embedWord
    rw [(by decide :
      (splitOnChar '_' "c").filter (fun e => ¬ (e = "")) = ["c"])]
    simp [mapO, h3, meanStack_single]
  unfold embedToken
  rw [(by decide : pySplit "a_b c" = ["a_b", "c"])]
  simp [mapO, hwa, hwc, meanStack_pair, matAdd, matScale]

/-- Concrete instance of C6: with `vec a = [4,0,0]`, `vec b = [0,8,0]`,
`vec c = [0,0,2]`, `embed_token "a_b c"` is
`mean(mean([4,0,0],[0,8,0]), [0,0,2]) = [1,2,1]`. -/
theorem embed_token_two_level_mean_witness :
    embedToken pySplit [("a", 1), ("b", 2), ("c", 3)]
      [[0, 0, 0], [4, 0, 0], [0, 8, 0], [0, 0, 2]] 3 "a_b c" =
      some [[1, 2, 1]] := by
  rw [embed_token_two_level_mean pySplit [("a", 1), ("b", 2), ("c", 3)]
    [[0, 0, 0], [4, 0, 0], [0, 8, 0], [0, 0, 2]] 3
    [4, 0, 0] [0, 8, 0] [0, 0, 2]
    (by decide) (by decide) (by decide) (by decide) (by decide) (by decide)
    (by decide) (by decide) (by decide)]
  simp [vecAdd, vecScale]
  norm_num

/-! ## Claim C4 -/

/-- Claim C4: on a column-cache hit the cached tensor is copied into
the zero-initialised output over exactly the region whose extent, in
the column dimension and the token dimension, is the minimum of the
cached size and the current batch-induced size (`L1 = cached_emb.size(0)`
against `maxLen`, `L2 = cached_emb.size(1)` against `maxTok`); the
cached length row is clamped to `maxTok` over the same column range;
positions outside the copied region stay zero; the call cannot fail and
invokes the embedding backend zero times.  Hence a schema cached under
a small batch can be queried inside a larger batch without crashing,
returning the cached values in the overlap and zeros elsewhere. -/
theorem columns_cache_hit_copies_overlap
    (tok : String → List String) (w2i : List (String × ℕ)) (vectors : Mat)
    (D : ℕ) (useCache : Bool) (maxLen maxTok L1 L2 : ℕ) (cache : Cache)
    (db : List String) (cemb : Tens3) (clens : List ℚ)
    (hhit : lookupCache cache db = some (cemb, clens))
    (hL1 : cemb.length = L1)
    (hL2 : (cemb.headD []).length = L2)
    (hrect : ∀ row ∈ cemb, row.length = L2)
    (hclens : clens.length = L1) :
    processDB tok w2i vectors D useCache maxLen maxTok cache db =
      some (hitCopy D maxLen maxTok cemb clens, cache, 0) ∧
    (hitCopy D maxLen maxTok cemb clens).1.length = maxLen ∧
    (∀ mat ∈ (hitCopy D maxLen maxTok cemb clens).1, mat.length = maxTok) ∧
    (∀ j k, j < maxLen → k < maxTok →
      ((hitCopy D maxLen maxTok cemb clens).1.getD j []).getD k (zeroVec D) =
        if j < min L1 maxLen ∧ k < min L2 maxTok then
          (cemb.getD j []).getD k (zeroVec D)
        else zeroVec D) ∧
    (∀ j, j < maxLen →
      (hitCopy D maxLen maxTok cemb clens).2.getD j 0 =
        if j < min L1 maxLen then min (clens.getD j 0) (maxTok : ℚ)
        else 0) := by
  have hm1 : min L1 maxLen ≤ L1 := Nat.min_le_left _ _
  have hm1' : min L1 maxLen ≤ maxLen := Nat.min_le_right _ _
  have hc1 : hitCopy D maxLen maxTok cemb clens =
      ((cemb.take (min L1 maxLen)).map (fun (row : Mat) =>
          row.take (min L2 maxTok) ++
            List.replicate (maxTok - min L2 maxTok) (zeroVec D)) ++
        List.replicate (maxLen - min L1 maxLen)
          (List.replicate maxTok (zeroVec D)),
       ((clens.map (fun x => min x (maxTok : ℚ))).take (min L1 maxLen)) ++
         List.replicate (maxLen - min L1 maxLen) 0) := by
    unfold hitCopy
    rw [hL1, hL2]
  have htakelen : (cemb.take (min L1 maxLen)).length = min L1 maxLen := by
    rw [List.length_take, hL1]
    omega
  have htakelen2 :
      ((clens.map (fun x => min x (maxTok : ℚ))).take (min L1 maxLen)).length =
        min L1 maxLen := by
    rw [List.length_take, List.length_map, hclens]
    omega
  refine ⟨?_, ?_, ?_, ?_, ?_⟩
  · simp [processDB, hhit]
  · rw [hc1]
    dsimp only
    rw [List.length_append, List.length_map, htakelen, List.length_replicate]
    omega
  · intro mat hmat
    rw [hc1] at hmat
    dsimp only at hmat
    rcases List.mem_append.mp hmat with hmat | hmat
    · rcases List.mem_map.mp hmat with ⟨row, hrow, rfl⟩
      have hrl : row.length = L2 := hrect row (List.mem_of_mem_take hrow)
      rw [List.length_append, List.length_take, List.length_replicate, hrl]
      omega
    · rw [List.eq_of_mem_replicate hmat, List.length_replicate]
  · intro j k hj hk
    rw [hc1]
    dsimp only
    by_cases hj1 : j < min L1 maxLen
    · have hjc : j < cemb.length := by omega
      have houter :
          (((cemb.take (min L1 maxLen)).map (fun (row : Mat) =>
              row.take (min L2 maxTok) ++
                List.replicate (maxTok - min L2 maxTok) (zeroVec D)) ++
            List.replicate (maxLen - min L1 maxLen)
              (List.replicate maxTok (zeroVec D))).getD j []) =
          (cemb[j]).take (min L2 maxTok) ++
            List.replicate (maxTok - min L2 maxTok) (zeroVec D) := by
        rw [List.getD_append _ _ _ _ (by rw [List.length_map, htakelen]; exact hj1),
          List.getD_eq_getElem _ _ (by rw [List.length_map, htakelen]; exact hj1),
          List.getElem_map, List.getElem_take]
      rw [houter]
      have hrl : (cemb[j]).length = L2 := hrect _ (List.getElem_mem hjc)
      have htake3 : ((cemb[j]).take (min L2 maxTok)).length = min L2 maxTok := by
        rw [List.length_take, hrl]
        omega
      by_cases hk2 : k < min L2 maxTok
      · rw [if_pos ⟨hj1, hk2⟩,
          List.getD_append _ _ _ _ (by rw [htake3]; exact hk2),
          List.getD_eq_getElem _ _ (by rw [htake3]; exact hk2),
          List.getElem_take, List.getD_eq_getElem _ _ hjc,
          List.getD_eq_getElem _ _ (by rw [hrl]; omega)]
      · rw [if_neg (fun hcon => hk2 hcon.2),
          List.getD_append_right _ _ _ _ (by rw [htake3]; omega), htake3,
          List.getD_eq_getElem _ _ (by rw [List.length_replicate]; omega),
          List.getElem_replicate]
    · rw [if_neg (fun hcon => hj1 hcon.1)]
      have houter :
          (((cemb.take (min L1 maxLen)).map (fun (row : Mat) =>
              row.take (min L2 maxTok) ++
                List.replicate (maxTok - min L2 maxTok) (zeroVec D)) ++
            List.replicate (maxLen - min L1 maxLen)
              (List.replicate maxTok (zeroVec D))).getD j []) =
          List.replicate maxTok (zeroVec D) := by
        rw [List.getD_append_right _ _ _ _ (by rw [List.length_map, htakelen]; omega),
          List.length_map, htakelen,
          List.getD_eq_getElem _ _ (by rw [List.length_replicate]; omega),
          List.getElem_replicate]
      rw [houter,
        List.getD_eq_getElem _ _ (by rw [List.length_replicate]; exact hk),
        List.getElem_replicate]
  · intro j hj
    rw [hc1]
    dsimp only
    by_cases hj1 : j < min L1 maxLen
    · rw [if_pos hj1,
        List.getD_append _ _ _ _ (by rw [htakelen2]; exact hj1),
        List.getD_eq_getElem _ _ (by rw [htakelen2]; exact hj1),
        List.getElem_take, List.getElem_map,
        List.getD_eq_getElem _ _ (by rw [hclens]; omega)]
    · rw [if_neg hj1,
        List.getD_append_right _ _ _ _ (by rw [htakelen2]; omega), htakelen2,
        List.getD_eq_getElem _ _ (by rw [List.length_replicate]; omega),
        List.getElem_replicate]

/-! ## Claim C5 -/

theorem mapO_length {α β : Type} (f : α → Option β) :
    ∀ (l : List α) (r : List β), mapO f l = some r → r.length = l.length := by
  intro l
  induction l with
  | nil =>
    intro r h
    simp [mapO] at h
    subst h
    rfl
  | cons x xs ih =>
    intro r h
    cases hx : f x with
    | none => rw [mapO, hx] at h; cases h
    | some y =>
      rw [mapO, hx] at h
      cases hm : mapO f xs with
      | none => rw [hm] at h; cases h
      | some ys =>
        rw [hm] at h
        injection h with h
        subst h
        simp [ih ys hm]

theorem mapO_mem {α β : Type} (f : α → Option β) :
    ∀ (l : List α) (r : List β), mapO f l = some r →
      ∀ y ∈ r, ∃ x ∈ l, f x = some y := by
  intro l
  induction l with
  | nil =>
    intro r h y hy
    simp [mapO] at h
    subst h
    cases hy
  | cons x xs ih =>
    intro r h y hy
    cases hx : f x with
    | none => rw [mapO, hx] at h; cases h
    | some y0 =>
      rw [mapO, hx] at h
      cases hm : mapO f xs with
      | none => rw [hm] at h; cases h
      | some ys =>
        rw [hm] at h
        injection h with h
        subst h
        rcases List.mem_cons.mp hy with rfl | hy
        · exact ⟨x, List.mem_cons_self x xs, hx⟩
        · rcases ih ys hm y hy with ⟨x', hx', hfx'⟩
          exact ⟨x', List.mem_cons_of_mem x hx', hfx'⟩

theorem mapO_singleton {α β : Type} (f : α → Option β) (x : α) (r : List β)
    (h : mapO f [x] = some r) : ∃ y, f x = some y ∧ r = [y] := by
  cases hx : f x with
  | none => rw [mapO, hx] at h; cases h
  | some y =>
    rw [mapO, hx] at h
    simp [mapO] at h
    exact ⟨y, rfl, h.symm⟩

theorem lookupCache_cons (db : List String) (out : CacheEntry)
    (cache : Cache) (k : List String) :
    lookupCache ((db, out) :: cache) k =
      if db = k then some out else lookupCache cache k := by
  unfold lookupCache
  rw [List.find?_cons]
  by_cases h : db = k
  · simp [h]
  · rw [beq_eq_false_iff_ne.mpr h]
    rw [if_neg h]

theorem forwardEmb_single_shape (tok : String → List String)
    (w2i : List (String × ℕ)) (vectors : Mat) (c : String)
    (emb : Tens3) (lens : List ℕ)
    (h : forwardEmb tok w2i vectors [c] = some (emb, lens)) :
    ∃ m, emb = [m] ∧ lens = [(tok (lowercase c)).length] ∧
      m.length = (tok (lowercase c)).length := by
  unfold forwardEmb at h
  dsimp [tokenized, maxLenOf] at h
  rw [Nat.zero_max, Nat.sub_self] at h
  cases hm : mapO (fun (row : List ℕ) => mapO (fun i => vectors.get? i) row)
      [(tok (lowercase c)).map (lookupIdx w2i) ++ List.replicate 0 0] with
  | none => rw [hm] at h; cases h
  | some e =>
    rw [hm] at h
    injection h with h
    rcases mapO_singleton _ _ _ hm with ⟨m, hfm, rfl⟩
    have hml : m.length = (tok (lowercase c)).length := by
      have := mapO_length _ _ _ hfm
      simpa using this
    refine ⟨m, ?_, ?_, hml⟩
    · exact (congrArg Prod.fst h).symm
    · exact (congrArg Prod.snd h).symm

theorem embedColumnMiss_wf (tok : String → List String)
    (w2i : List (String × ℕ)) (vectors : Mat) (D maxTok : ℕ)
    (column : String) (m : Mat) (L : ℕ)
    (h : embedColumnMiss tok w2i vectors D maxTok column = some (m, L)) :
    m.length = maxTok ∧ L ≤ maxTok := by
  unfold embedColumnMiss at h
  cases hf : forwardEmb tok w2i vectors [column] with
  | none => rw [hf] at h; cases h
  | some r =>
    rw [hf] at h
    obtain ⟨emb, lens⟩ := r
    rcases forwardEmb_single_shape tok w2i vectors column emb lens hf with
      ⟨m0, rfl, rfl, hm0⟩
    dsimp at h
    by_cases hL : (tok (lowercase column)).length ≤ maxTok
    · rw [if_pos hL] at h
      injection h with h
      injection h with h1 h2
      subst h1
      subst h2
      constructor
      · rw [List.length_append, hm0, List.length_replicate]
        omega
      · exact hL
    · rw [if_neg hL] at h
      cases h

theorem missDB_wf (tok : String → List String) (w2i : List (String × ℕ))
    (vectors : Mat) (D maxLen maxTok : ℕ) (db : List String)
    (out : CacheEntry)
    (h : missDB tok w2i vectors D maxLen maxTok db = some out) :
    out.1.length = maxLen ∧ (∀ row ∈ out.1, row.length = maxTok) ∧
    out.2.length = maxLen ∧ (∀ x ∈ out.2, min x (maxTok : ℚ) = x) := by
  unfold missDB at h
  by_cases hg : db.length ≤ maxLen
  · rw [if_pos hg] at h
    cases hm : mapO (embedColumnMiss tok w2i vectors D maxTok) db with
    | none => rw [hm] at h; cases h
    | some rows =>
      rw [hm] at h
      injection h with h
      subst h
      have hrows : rows.length = db.length := mapO_length _ _ _ hm
      refine ⟨?_, ?_, ?_, ?_⟩
      · dsimp
        rw [List.length_append, List.length_map, List.length_replicate, hrows]
        omega
      · intro row hrow
        dsimp at hrow
        rcases List.mem_append.mp hrow with hrow | hrow
        · rcases List.mem_map.mp hrow with ⟨r, hr, rfl⟩
          rcases mapO_mem _ _ _ hm r hr with ⟨col, _, hcol⟩
          exact (embedColumnMiss_wf tok w2i vectors D maxTok col r.1 r.2
            (by rw [hcol])).1
        · rw [List.eq_of_mem_replicate hrow, List.length_replicate]
      · dsimp
        rw [List.length_append, List.length_map, List.length_replicate, hrows]
        omega
      · intro x hx
        dsimp at hx
        rcases List.mem_append.mp hx with hx | hx
        · rcases List.mem_map.mp hx with ⟨r, hr, rfl⟩
          rcases mapO_mem _ _ _ hm r hr with ⟨col, _, hcol⟩
          have hle : r.2 ≤ maxTok :=
            (embedColumnMiss_wf tok w2i vectors D maxTok col r.1 r.2
              (by rw [hcol])).2
          exact min_eq_left (by exact_mod_cast hle)
        · rw [List.eq_of_mem_replicate hx]
          exact min_eq_left (by positivity)
  · rw [if_neg hg] at h
    cases h

theorem hitCopy_eq_self (D maxLen maxTok : ℕ) (cemb : Tens3) (clens : List ℚ)
    (h1 : cemb.length = maxLen) (h2 : ∀ row ∈ cemb, row.length = maxTok)
    (h3 : clens.length = maxLen) (h4 : ∀ x ∈ clens, min x (maxTok : ℚ) = x) :
    hitCopy D maxLen maxTok cemb clens = (cemb, clens) := by
  have hmap2 : clens.map (fun x => min x (maxTok : ℚ)) = clens := by
    rw [List.map_congr_left h4]
    exact List.map_id' clens
  have htk2 : clens.take maxLen = clens :=
    List.take_of_length_le (le_of_eq h3)
  cases cemb with
  | nil =>
    have hm : maxLen = 0 := by simpa using h1.symm
    subst hm
    have hcl : clens = [] := List.length_eq_zero.mp h3
    subst hcl
    rfl
  | cons r rs =>
    have hr : r.length = maxTok := h2 r (List.mem_cons_self r rs)
    have htk : (r :: rs).take maxLen = r :: rs :=
      List.take_of_length_le (le_of_eq h1)
    have hmapid : (r :: rs).map
        (fun (row : Mat) => row.take maxTok) = r :: rs := by
      rw [List.map_congr_left (fun row hrow =>
        List.take_of_length_le (le_of_eq (h2 row hrow)))]
      exact List.map_id' _
    unfold hitCopy
    simp only [List.headD_cons, hr, h1, Nat.min_self, Nat.sub_self,
      List.replicate_zero, List.append_nil, htk, hmap2, htk2, hmapid]

theorem processDB_cases (tok : String → List String)
    (w2i : List (String × ℕ)) (vectors : Mat) (D : ℕ) (uc : Bool)
    (maxLen maxTok : ℕ) (cache : Cache) (db : List String)
    (step : CacheEntry × Cache × ℕ)
    (h : processDB tok w2i vectors D uc maxLen maxTok cache db = some step) :
    (∃ e, lookupCache cache db = some e ∧
      step = (hitCopy D maxLen maxTok e.1 e.2, cache, 0)) ∨
    (lookupCache cache db = none ∧
      ∃ out, missDB tok w2i vectors D maxLen maxTok db = some out ∧
        step = (out, if uc then (db, out) :: cache else cache, db.length)) := by
  unfold processDB at h
  cases hl : lookupCache cache db with
  | some e =>
    rw [hl] at h
    injection h with h
    exact Or.inl ⟨e, rfl, h.symm⟩
  | none =>
    rw [hl] at h
    cases hm : missDB tok w2i vectors D maxLen maxTok db with
    | none => rw [hm] at h; cases h
    | some out =>
      rw [hm] at h
      injection h with h
      exact Or.inr ⟨rfl, out, rfl, h.symm⟩

theorem processAll_preserves (tok : String → List String)
    (w2i : List (String × ℕ)) (vectors : Mat) (D : ℕ) (uc : Bool)
    (maxLen maxTok : ℕ) :
    ∀ (dbs : List (List String)) (cache : Cache) (outs : List CacheEntry)
      (c' : Cache) (n : ℕ),
      processAll tok w2i vectors D uc maxLen maxTok cache dbs =
        some (outs, c', n) →
      ∀ k e, lookupCache cache k = some e → lookupCache c' k = some e := by
  intro dbs
  induction dbs with
  | nil =>
    intro cache outs c' n h k e hk
    unfold processAll at h
    injection h with h
    have : cache = c' := congrArg (fun p => p.2.1) h
    rw [← this]
    exact hk
  | cons db rest ih =>
    intro cache outs c' n h k e hk
    unfold processAll at h
    cases hd : processDB tok w2i vectors D uc maxLen maxTok cache db with
    | none => rw [hd] at h; cases h
    | some step =>
      rw [hd] at h
      dsimp at h
      cases hr : processAll tok w2i vectors D uc maxLen maxTok step.2.1 rest with
      | none => rw [hr] at h; cases h
      | some restOut =>
        rw [hr] at h
        dsimp at h
        injection h with h
        have hc' : restOut.2.1 = c' := congrArg (fun p => p.2.1) h
        have hmid : lookupCache step.2.1 k = some e := by
          rcases processDB_cases tok w2i vectors D uc maxLen maxTok cache db
              step hd with ⟨e0, _, hstep⟩ | ⟨hnone, out, _, hstep⟩
          · rw [hstep]
            exact hk
          · rw [hstep]
            dsimp
            cases uc with
            | false => exact hk
            | true =>
              rw [if_pos rfl, lookupCache_cons]
              rw [if_neg (fun hdk => by rw [hdk, hk] at hnone; cases hnone)]
              exact hk
        have := ih step.2.1 restOut.1 restOut.2.1 restOut.2.2
          (by rw [hr]) k e hmid
        rw [← hc']
        exact this

theorem processAll_idem (tok : String → List String)
    (w2i : List (String × ℕ)) (vectors : Mat) (D maxLen maxTok : ℕ) :
    ∀ (dbs : List (List String)) (cache : Cache) (outs : List CacheEntry)
      (c' : Cache) (n : ℕ),
      processAll tok w2i vectors D true maxLen maxTok cache dbs =
        some (outs, c', n) →
      processAll tok w2i vectors D true maxLen maxTok c' dbs =
        some (outs, c', 0) := by
  intro dbs
  induction dbs with
  | nil =>
    intro cache outs c' n h
    unfold processAll at h ⊢
    injection h with h
    have h1 : ([] : List CacheEntry) = outs := congrArg (fun p => p.1) h
    rw [← h1]
  | cons db rest ih =>
    intro cache outs c' n h
    unfold processAll at h
    cases hd : processDB tok w2i vectors D true maxLen maxTok cache db with
    | none => rw [hd] at h; cases h
    | some step =>
      rw [hd] at h
      dsimp at h
      cases hr : processAll tok w2i vectors D true maxLen maxTok step.2.1
          rest with
      | none => rw [hr] at h; cases h
      | some restOut =>
        rw [hr] at h
        dsimp at h
        injection h with h
        have houts : step.1 :: restOut.1 = outs := congrArg (fun p => p.1) h
        have hc' : restOut.2.1 = c' := congrArg (fun p => p.2.1) h
        have hrest : processAll tok w2i vectors D true maxLen maxTok
            step.2.1 rest = some (restOut.1, restOut.2.1, restOut.2.2) := by
          rw [hr]
        have hkey : ∃ e', lookupCache c' db = some e' ∧
            hitCopy D maxLen maxTok e'.1 e'.2 = step.1 := by
          rcases processDB_cases tok w2i vectors D true maxLen maxTok cache db
              step hd with ⟨e, hl, hstep⟩ | ⟨hnone, out, hmiss, hstep⟩
          · refine ⟨e, ?_, ?_⟩
            · have hmid : lookupCache step.2.1 db = some e := by
                rw [hstep]
                exact hl
              have hpres := processAll_preserves tok w2i vectors D true maxLen
                maxTok rest step.2.1 restOut.1 restOut.2.1 restOut.2.2 hrest
                db e hmid
              rw [← hc']
              exact hpres
            · rw [hstep]
          · refine ⟨out, ?_, ?_⟩
            · have hmid : lookupCache step.2.1 db = some out := by
                rw [hstep]
                dsimp
                rw [lookupCache_cons, if_pos rfl]
              have hpres := processAll_preserves tok w2i vectors D true maxLen
                maxTok rest step.2.1 restOut.1 restOut.2.1 restOut.2.2 hrest
                db out hmid
              rw [← hc']
              exact hpres
            · rcases missDB_wf tok w2i vectors D maxLen maxTok db out hmiss
                with ⟨w1, w2, w3, w4⟩
              rw [hstep]
              dsimp
              rw [hitCopy_eq_self D maxLen maxTok out.1 out.2 w1 w2 w3 w4]
        rcases hkey with ⟨e', hl', hhit'⟩
        have hstep' : processDB tok w2i vectors D true maxLen maxTok c' db =
            some (step.1, c', 0) := by
          unfold processDB
          rw [hl']
          dsimp only
          rw [hhit']
        have hih := ih step.2.1 restOut.1 restOut.2.1 restOut.2.2 hrest
        rw [hc'] at hih
        unfold processAll
        rw [hstep']
        dsimp
        rw [hih]
        dsimp
        rw [houts]

/-- Claim C5: with caching enabled, calling `get_columns_emb` twice in
succession with an identical nested column list returns bit-identical
output on the second call (embedding tensor, column counts and
per-column token counts), leaves the cache unchanged, and invokes the
embedding backend (`self(column)` calls) zero additional times. -/
theorem columns_cache_second_call_identical
    (tok : String → List String) (w2i : List (String × ℕ)) (vectors : Mat)
    (D : ℕ) (c0 : Cache) (columns : List (List (List String)))
    (out : List Tens3 × List ℕ × List (List ℚ)) (c1 : Cache) (n : ℕ)
    (h : getColumnsEmb tok w2i vectors D true c0 columns = some (out, c1, n)) :
    getColumnsEmb tok w2i vectors D true c1 columns = some (out, c1, 0) := by
  cases columns with
  | nil => unfold getColumnsEmb at h; cases h
  | cons cb0 cbrest =>
    unfold getColumnsEmb at h ⊢
    dsimp only at h ⊢
    by_cases hguard : ((((cb0 :: cbrest).map (fun db => db.map joinColumn)).map
        (fun db => db.map (fun c => (tok c).length))).any
          (fun l => l.isEmpty)) = true
    · rw [if_pos hguard] at h
      cases h
    · rw [if_neg hguard] at h
      rw [if_neg hguard]
      cases hp : processAll tok w2i vectors D true
          (((cb0 :: cbrest).map List.length).foldl max 0)
          (((((cb0 :: cbrest).map (fun db => db.map joinColumn)).map
              (fun db => db.map (fun c => (tok c).length))).map
            (fun l => l.foldl max 0)).foldl max 0)
          c0 ((cb0 :: cbrest).map (fun db => db.map joinColumn)) with
      | none => rw [hp] at h; cases h
      | some r =>
        rw [hp] at h
        dsimp at h
        injection h with h
        have hout : ((r.1.map (fun e => e.1), (cb0 :: cbrest).map List.length,
            r.1.map (fun e => e.2)) :
              List Tens3 × List ℕ × List (List ℚ)) = out :=
          congrArg (fun p => p.1) h
        have hc1 : r.2.1 = c1 := congrArg (fun p => p.2.1) h
        have hrstruct : processAll tok w2i vectors D true
            (((cb0 :: cbrest).map List.length).foldl max 0)
            (((((cb0 :: cbrest).map (fun db => db.map joinColumn)).map
                (fun db => db.map (fun c => (tok c).length))).map
              (fun l => l.foldl max 0)).foldl max 0)
            c0 ((cb0 :: cbrest).map (fun db => db.map joinColumn)) =
            some (r.1, r.2.1, r.2.2) := by
          rw [hp]
        have hidem := processAll_idem tok w2i vectors D
          (((cb0 :: cbrest).map List.length).foldl max 0)
          (((((cb0 :: cbrest).map (fun db => db.map joinColumn)).map
              (fun db => db.map (fun c => (tok c).length))).map
            (fun l => l.foldl max 0)).foldl max 0)
          ((cb0 :: cbrest).map (fun db => db.map joinColumn))
          c0 r.1 r.2.1 r.2.2 hrstruct
        rw [hc1] at hidem
        rw [hidem]
        dsimp
        rw [List.map_cons] at hout
        rw [hout]

/-- Concrete instance of C4: a schema cached with 1 column and 1 token
(`D = 2`) queried under a batch requiring 2 columns and 3 tokens: the
hit succeeds, the single cached vector lands at position (0,0), and all
other positions are zero. -/
theorem columns_cache_hit_witness :
    (processDB pySplit [("col1", 1)] [[0, 0], [1, 2]] 2 true 2 3
        [(["col1"], ([[[1, 2]]], [1]))] ["col1"] =
      some (hitCopy 2 2 3 [[[1, 2]]] [1],
        [(["col1"], ([[[1, 2]]], [1]))], 0)) ∧
    (hitCopy 2 2 3 [[[1, 2]]] [1]).1.length = 2 ∧
    (∀ mat ∈ (hitCopy 2 2 3 [[[1, 2]]] [1]).1, mat.length = 3) ∧
    (∀ j k, j < 2 → k < 3 →
      ((hitCopy 2 2 3 [[[1, 2]]] [1]).1.getD j []).getD k (zeroVec 2) =
        if j < min 1 2 ∧ k < min 1 3 then
          (([[[1, 2]]] : Tens3).getD j []).getD k (zeroVec 2)
        else zeroVec 2) ∧
    (∀ j, j < 2 →
      (hitCopy 2 2 3 [[[1, 2]]] [1]).2.getD j 0 =
        if j < min 1 2 then min (([1] : List ℚ).getD j 0) ((3 : ℕ) : ℚ)
        else 0) :=
  columns_cache_hit_copies_overlap pySplit [("col1", 1)] [[0, 0], [1, 2]] 2
    true 2 3 1 1 [(["col1"], ([[[1, 2]]], [1]))] ["col1"] [[[1, 2]]] [1]
    (by decide) (by decide) (by decide) (by decide) (by decide)

/-- Concrete instance of C5: the single-schema batch `[[["col1"]]]`,
already cached by a first call that invoked the backend once, yields
the identical output with zero backend invocations on the second
call. -/
theorem columns_cache_second_call_witness :
    getColumnsEmb pySplit [("col1", 1)] [[0, 0], [1, 2]] 2 true
      [(["col1"], ([[[1, 2]]], [1]))] [[["col1"]]] =
      some (([[[[1, 2]]]], [1], [[1]]), [(["col1"], ([[[1, 2]]], [1]))], 0) :=
  columns_cache_second_call_identical pySplit [("col1", 1)] [[0, 0], [1, 2]] 2
    [] [[["col1"]]] ([[[[1, 2]]]], [1], [[1]]) [(["col1"], ([[[1, 2]]], [1]))]
    1 (by rfl)

/-! ## Claim C8 -/

theorem dictGet?_append_left (d1 d2 : List (String × ℕ)) (k : String)
    (i : ℕ) (h : dictGet? d1 k = some i) : dictGet? (d1 ++ d2) k = some i := by
  unfold dictGet? at h ⊢
  cases hf : d1.find? (fun p => p.1 == k) with
  | none => rw [hf] at h; cases h
  | some p =>
    rw [hf] at h
    rw [List.find?_append, hf]
    exact h

theorem dictGet?_append_sing_ne (d1 : List (String × ℕ)) (k k' : String)
    (v : ℕ) (h : dictGet? d1 k = none) (hne : ¬ (k' = k)) :
    dictGet? (d1 ++ [(k', v)]) k = none := by
  unfold dictGet? at h ⊢
  cases hf : d1.find? (fun p => p.1 == k) with
  | some p => rw [hf] at h; cases h
  | none =>
    rw [List.find?_append, hf]
    simp [List.find?_cons, beq_eq_false_iff_ne.mpr hne]

theorem dictGet?_append_sing_self (d1 : List (String × ℕ)) (k : String)
    (v : ℕ) (h : dictGet? d1 k = none) :
    dictGet? (d1 ++ [(k, v)]) k = some v := by
  unfold dictGet? at h ⊢
  cases hf : d1.find? (fun p => p.1 == k) with
  | some p => rw [hf] at h; cases h
  | none =>
    rw [List.find?_append, hf]
    simp [List.find?_cons]

theorem laserGrow_preserve (embedder : String → Vec) :
    ∀ (ws : List String) (st : LaserState) (w : String) (i : ℕ),
      dictGet? st.word2idx w = some i → i < st.vectors.length →
      dictGet? (laserGrow embedder st ws).1.word2idx w = some i ∧
      (laserGrow embedder st ws).1.vectors.get? i = st.vectors.get? i ∧
      (laserGrow embedder st ws).2.count w = 0 := by
  intro ws
  induction ws with
  | nil =>
    intro st w i h hi
    exact ⟨h, rfl, rfl⟩
  | cons w' ws ih =>
    intro st w i h hi
    by_cases hseen : (dictGet? st.word2idx w').isSome
    · rw [laserGrow, if_pos hseen]
      exact ih st w i h hi
    · rw [laserGrow, if_neg hseen]
      dsimp only
      have hne : ¬ (w' = w) := by
        intro hww
        rw [hww, h] at hseen
        exact hseen rfl
      have h1 : dictGet? (st.word2idx ++ [(w', st.word2idx.length)]) w =
          some i := dictGet?_append_left _ _ _ _ h
      have hi1 : i < (st.vectors ++ [embedder w']).length := by
        rw [List.length_append]
        omega
      have hrec := ih ⟨st.word2idx ++ [(w', st.word2idx.length)],
        st.vectors ++ [embedder w']⟩ w i h1 hi1
      refine ⟨hrec.1, ?_, ?_⟩
      · rw [hrec.2.1]
        exact List.get?_append hi
      · rw [List.count_cons]
        simp [hrec.2.2, beq_eq_false_iff_ne.mpr hne]

theorem laserGrow_inserts (embedder : String → Vec) :
    ∀ (ws : List String) (st : LaserState) (w : String),
      st.vectors.length = st.word2idx.length →
      dictGet? st.word2idx w = none → w ∈ ws →
      ∃ i, dictGet? (laserGrow embedder st ws).1.word2idx w = some i ∧
        (laserGrow embedder st ws).1.vectors.get? i = some (embedder w) ∧
        (laserGrow embedder st ws).2.count w = 1 ∧
        st.word2idx.length ≤ i := by
  intro ws
  induction ws with
  | nil =>
    intro st w _ _ hmem
    cases hmem
  | cons w' ws ih =>
    intro st w hlen hnone hmem
    by_cases hww : w' = w
    · subst hww
      have hseen : ¬ (dictGet? st.word2idx w').isSome = true := by
        rw [hnone]
        simp
      rw [laserGrow, if_neg hseen]
      dsimp only
      have h1 : dictGet? (st.word2idx ++ [(w', st.word2idx.length)]) w' =
          some st.word2idx.length := dictGet?_append_sing_self _ _ _ hnone
      have hi1 : st.word2idx.length <
          (st.vectors ++ [embedder w']).length := by
        rw [List.length_append, hlen]
        simp
      have hget : (st.vectors ++ [embedder w']).get? st.word2idx.length =
          some (embedder w') := by
        rw [List.get?_append_right (le_of_eq hlen), hlen, Nat.sub_self]
        rfl
      have hrec := laserGrow_preserve embedder ws
        ⟨st.word2idx ++ [(w', st.word2idx.length)],
          st.vectors ++ [embedder w']⟩ w' st.word2idx.length h1 hi1
      refine ⟨st.word2idx.length, hrec.1, ?_, ?_, le_refl _⟩
      · rw [hrec.2.1]
        exact hget
      · rw [List.count_cons]
        simp [hrec.2.2]
    · have hmem' : w ∈ ws := by
        rcases List.mem_cons.mp hmem with h | h
        · exact absurd h.symm hww
        · exact h
      by_cases hseen : (dictGet? st.word2idx w').isSome
      · rw [laserGrow, if_pos hseen]
        exact ih st w hlen hnone hmem'
      · rw [laserGrow, if_neg hseen]
        dsimp only
        have hlen1 : (st.vectors ++ [embedder w']).length =
            (st.word2idx ++ [(w', st.word2idx.length)]).length := by
          rw [List.length_append, List.length_append, hlen]
          rfl
        have hnone1 : dictGet? (st.word2idx ++ [(w', st.word2idx.length)])
            w = none := dictGet?_append_sing_ne _ _ _ _ hnone hww
        rcases ih ⟨st.word2idx ++ [(w', st.word2idx.length)],
            st.vectors ++ [embedder w']⟩ w hlen1 hnone1 hmem' with
          ⟨i, hl, hv, hc, hge⟩
        refine ⟨i, hl, hv, ?_, ?_⟩
        · have hne2 : ¬ (w = w') := fun hh => hww hh.symm
          rw [List.count_cons]
          simp [hc, hne2]
          exact hww
        · rw [List.length_append] at hge
          omega

theorem laserForward_state (embedder : String → Vec)
    (tok : String → List String) (D : ℕ) (st : LaserState) (s : String)
    (ss : List String) :
    (laserForward embedder tok D st (s :: ss) false).1 =
      (laserGrow embedder st ((tokenized tok (s :: ss)).flatten)).1 := rfl

theorem laserForward_log (embedder : String → Vec)
    (tok : String → List String) (D : ℕ) (st : LaserState) (s : String)
    (ss : List String) :
    (laserForward embedder tok D st (s :: ss) false).2.1 =
      (laserGrow embedder st ((tokenized tok (s :: ss)).flatten)).2 := rfl

/-- Claim C8: in the dynamic-vocabulary LASER backend with
`mean_sequence=False`, a token `w` not yet in the vocabulary is
assigned the next integer index, the external embedder is invoked
exactly once on it (the invocation log counts one occurrence of `w`),
and its vector is appended at the assigned slot; any subsequent
`forward` call from the resulting state reuses the stored vector and
never invokes the embedder on `w` again. -/
theorem laser_dynamic_vocab_growth (embedder : String → Vec)
    (tok : String → List String) (D : ℕ) (st : LaserState)
    (sentences : List String) (w : String)
    (hlen : st.vectors.length = st.word2idx.length)
    (hnew : dictGet? st.word2idx w = none)
    (hne : sentences ≠ [])
    (hmem : w ∈ (tokenized tok sentences).flatten) :
    ∃ i,
      (laserForward embedder tok D st sentences false).2.1.count w = 1 ∧
      dictGet? (laserForward embedder tok D st sentences false).1.word2idx
        w = some i ∧
      (laserForward embedder tok D st sentences false).1.vectors.get? i =
        some (embedder w) ∧
      st.word2idx.length ≤ i ∧
      (∀ sentences2,
        (laserForward embedder tok D
            (laserForward embedder tok D st sentences false).1 sentences2
            false).2.1.count w = 0 ∧
        dictGet? (laserForward embedder tok D
            (laserForward embedder tok D st sentences false).1 sentences2
            false).1.word2idx w = some i ∧
        (laserForward embedder tok D
            (laserForward embedder tok D st sentences false).1 sentences2
            false).1.vectors.get? i = some (embedder w)) := by
  cases sentences with
  | nil => exact absurd rfl hne
  | cons s ss =>
    rcases laserGrow_inserts embedder ((tokenized tok (s :: ss)).flatten) st w
      hlen hnew hmem with ⟨i, hl, hv, hc, hge⟩
    rw [laserForward_state, laserForward_log]
    refine ⟨i, hc, hl, hv, hge, ?_⟩
    intro sentences2
    have hivalid : i <
        (laserGrow embedder st ((tokenized tok (s :: ss)).flatten)).1.vectors.length :=
      (List.get?_eq_some.mp hv).1
    cases sentences2 with
    | nil => exact ⟨rfl, hl, hv⟩
    | cons s2 ss2 =>
      rw [laserForward_state, laserForward_log]
      have hpres := laserGrow_preserve embedder
        ((tokenized tok (s2 :: ss2)).flatten)
        (laserGrow embedder st ((tokenized tok (s :: ss)).flatten)).1 w i hl
        hivalid
      exact ⟨hpres.2.2, hpres.1, by rw [hpres.2.1]; exact hv⟩

/-- Concrete instance of C8: growing the empty LASER vocabulary on the
batch `["hi", "hi yo"]` embeds `"yo"` exactly once, stores it at
index 1, and a second call on `["yo yo"]` reuses it with no further
invocation. -/
theorem laser_dynamic_vocab_growth_witness :
    ∃ i,
      (laserForward (fun x => [(x.length : ℚ)]) pySplit 1
          ⟨[], []⟩ ["hi", "hi yo"] false).2.1.count "yo" = 1 ∧
      dictGet? (laserForward (fun x => [(x.length : ℚ)]) pySplit 1
          ⟨[], []⟩ ["hi", "hi yo"] false).1.word2idx "yo" = some i ∧
      (laserForward (fun x => [(x.length : ℚ)]) pySplit 1
          ⟨[], []⟩ ["hi", "hi yo"] false).1.vectors.get? i =
        some [((("yo" : String).length : ℕ) : ℚ)] ∧
      (⟨[], []⟩ : LaserState).word2idx.length ≤ i ∧
      (∀ sentences2,
        (laserForward (fun x => [(x.length : ℚ)]) pySplit 1
            (laserForward (fun x => [(x.length : ℚ)]) pySplit 1
              ⟨[], []⟩ ["hi", "hi yo"] false).1 sentences2
            false).2.1.count "yo" = 0 ∧
        dictGet? (laserForward (fun x => [(x.length : ℚ)]) pySplit 1
            (laserForward (fun x => [(x.length : ℚ)]) pySplit 1
              ⟨[], []⟩ ["hi", "hi yo"] false).1 sentences2
            false).1.word2idx "yo" = some i ∧
        (laserForward (fun x => [(x.length : ℚ)]) pySplit 1
            (laserForward (fun x => [(x.length : ℚ)]) pySplit 1
              ⟨[], []⟩ ["hi", "hi yo"] false).1 sentences2
            false).1.vectors.get? i = some [((("yo" : String).length : ℕ) : ℚ)]) :=
  laser_dynamic_vocab_growth (fun x => [(x.length : ℚ)]) pySplit 1
    ⟨[], []⟩ ["hi", "hi yo"] "yo" (by decide) (by decide) (by decide)
    (by decide)

/-! ## Claim C9 -/

theorem foldl_max_le (c : ℕ) :
    ∀ (l : List ℕ) (b : ℕ), b ≤ c → (∀ x ∈ l, x ≤ c) → l.foldl max b ≤ c := by
  intro l
  induction l with
  | nil =>
    intro b hb _
    simpa using hb
  | cons x xs ih =>
    intro b hb hall
    rw [List.foldl_cons]
    exact ih (max b x) (max_le hb (hall x (List.mem_cons_self _ _)))
      (fun y hy => hall y (List.mem_cons_of_mem _ hy))

theorem maxLenOf_singleton_lists (sw : List (List String))
    (h : ∀ t ∈ sw, t.length = 1) (hne : sw ≠ []) : maxLenOf sw = 1 := by
  cases sw with
  | nil => exact absurd rfl hne
  | cons t ts =>
    apply le_antisymm
    · apply foldl_max_le
      · omega
      · intro x hx
        rcases List.mem_map.mp hx with ⟨u, hu, rfl⟩
        rw [h u hu]
    · have : t.length ∈ (t :: ts).map List.length :=
        List.mem_map.mpr ⟨t, List.mem_cons_self _ _, rfl⟩
      have hle := mem_le_foldl_max _ _ this 0
      rw [h t (List.mem_cons_self _ _)] at hle
      exact hle

/-- Invariants of the dynamic LASER state: the vector store and the
vocabulary have equal sizes, every assigned index is in range, and
every stored vector has the embedder's dimension. -/
def LaserInv (D : ℕ) (st : LaserState) : Prop :=
  st.vectors.length = st.word2idx.length ∧
  (∀ p ∈ st.word2idx, p.2 < st.vectors.length) ∧
  (∀ v ∈ st.vectors, v.length = D)

theorem dictGet?_lt (st : LaserState) (D : ℕ) (hinv : LaserInv D st)
    (w : String) (i : ℕ) (h : dictGet? st.word2idx w = some i) :
    i < st.vectors.length := by
  unfold dictGet? at h
  cases hf : st.word2idx.find? (fun p => p.1 == w) with
  | none => rw [hf] at h; cases h
  | some p =>
    rw [hf] at h
    injection h with h
    rw [← h]
    exact hinv.2.1 p (List.mem_of_find?_eq_some hf)

theorem laserGrow_lookup_mono (embedder : String → Vec) :
    ∀ (ws : List String) (st : LaserState) (w : String) (i : ℕ),
      dictGet? st.word2idx w = some i →
      dictGet? (laserGrow embedder st ws).1.word2idx w = some i := by
  intro ws
  induction ws with
  | nil =>
    intro st w i h
    exact h
  | cons w' ws ih =>
    intro st w i h
    by_cases hseen : (dictGet? st.word2idx w').isSome
    · rw [laserGrow, if_pos hseen]
      exact ih st w i h
    · rw [laserGrow, if_neg hseen]
      dsimp only
      exact ih ⟨st.word2idx ++ [(w', st.word2idx.length)],
        st.vectors ++ [embedder w']⟩ w i (dictGet?_append_left _ _ _ _ h)

theorem laserGrow_inv (embedder : String → Vec) (D : ℕ)
    (hedim : ∀ x, (embedder x).length = D) :
    ∀ (ws : List String) (st : LaserState), LaserInv D st →
      LaserInv D (laserGrow embedder st ws).1 ∧
      ∀ w ∈ ws, (dictGet? (laserGrow embedder st ws).1.word2idx w).isSome := by
  intro ws
  induction ws with
  | nil =>
    intro st h
    exact ⟨h, fun w hw => absurd hw (List.not_mem_nil w)⟩
  | cons w' ws ih =>
    intro st h
    by_cases hseen : (dictGet? st.word2idx w').isSome
    · rw [laserGrow, if_pos hseen]
      refine ⟨(ih st h).1, ?_⟩
      intro w hw
      rcases List.mem_cons.mp hw with rfl | hw
      · rcases Option.isSome_iff_exists.mp hseen with ⟨i, hi⟩
        rw [laserGrow_lookup_mono embedder ws st w i hi]
        rfl
      · exact (ih st h).2 w hw
    · rw [laserGrow, if_neg hseen]
      dsimp only
      have hinv1 : LaserInv D ⟨st.word2idx ++ [(w', st.word2idx.length)],
          st.vectors ++ [embedder w']⟩ := by
        obtain ⟨e1, e2, e3⟩ := h
        refine ⟨?_, ?_, ?_⟩
        · dsimp
          rw [List.length_append, List.length_append, e1]
          rfl
        · intro p hp
          dsimp at hp ⊢
          rw [List.length_append]
          rcases List.mem_append.mp hp with hp | hp
          · have := e2 p hp
            omega
          · simp at hp
            rw [hp, ← e1]
            simp
        · intro v hv
          dsimp at hv
          rcases List.mem_append.mp hv with hv | hv
          · exact e3 v hv
          · simp at hv
            rw [hv]
            exact hedim w'
      refine ⟨(ih _ hinv1).1, ?_⟩
      intro w hw
      rcases List.mem_cons.mp hw with rfl | hw
      · have hnone : dictGet? st.word2idx w = none :=
          Option.not_isSome_iff_eq_none.mp hseen
        have hins : dictGet? (st.word2idx ++ [(w, st.word2idx.length)]) w =
            some st.word2idx.length := dictGet?_append_sing_self _ _ _ hnone
        rw [laserGrow_lookup_mono embedder ws _ w _ hins]
        rfl
      · exact (ih _ hinv1).2 w hw

/-- The single leaf-array row produced for a one-token sentence during
LASER retrieval (proof abbreviation). -/
def singleRowEntry (st : LaserState) (D : ℕ) (t : List String) :
    List LeafArr :=
  [(([D] : List ℕ), st.vectors.getD (lookupIdx st.word2idx (t.headD "")) [])]

theorem laserSentenceEntries_single (st : LaserState) (D : ℕ)
    (hinv : LaserInv D st) (w : String)
    (hsome : (dictGet? st.word2idx w).isSome) :
    laserSentenceEntries st D 1 [w] = some (singleRowEntry st D [w]) := by
  rcases Option.isSome_iff_exists.mp hsome with ⟨i, hi⟩
  have hlt : i < st.vectors.length := dictGet?_lt st D hinv w i hi
  have hidx : lookupIdx st.word2idx w = i := by
    unfold lookupIdx
    rw [hi]
    rfl
  have hget : st.vectors.get? i = some (st.vectors.getD i []) := by
    rw [List.getD_eq_getElem _ _ hlt, List.get?_eq_getElem?,
      List.getElem?_eq_getElem hlt]
  have hdim : (st.vectors.getD i []).length = D := by
    apply hinv.2.2
    rw [List.getD_eq_getElem _ _ hlt]
    exact List.getElem_mem hlt
  have hentry : laserEntry st w = some (([D] : List ℕ), st.vectors.getD i []) := by
    unfold laserEntry
    rw [hidx, hget]
    dsimp
    rw [hdim]
  unfold laserSentenceEntries singleRowEntry
  simp [mapO, hentry, hidx]

theorem laser_tensor_shape (st : LaserState) (D : ℕ) (hinv : LaserInv D st)
    (sw : List (List String)) (hne : sw ≠ [])
    (h1 : ∀ t ∈ sw, t.length = 1)
    (hmem : ∀ w ∈ sw.flatten, (dictGet? st.word2idx w).isSome) :
    ∃ data, (mapO (laserSentenceEntries st D (maxLenOf sw)) sw).bind
      torchTensor2 = some ((sw.length :: 1 :: [D] : List ℕ), data) := by
  cases sw with
  | nil => exact absurd rfl hne
  | cons t0 ts =>
    have hrow : ∀ t ∈ t0 :: ts,
        laserSentenceEntries st D (maxLenOf (t0 :: ts)) t =
          some (singleRowEntry st D t) := by
      intro t ht
      rcases List.length_eq_one.mp (h1 t ht) with ⟨w, rfl⟩
      have hw : w ∈ (t0 :: ts).flatten :=
        List.mem_flatten.mpr ⟨[w], ht, by simp⟩
      rw [maxLenOf_singleton_lists (t0 :: ts) h1 (by simp)]
      exact laserSentenceEntries_single st D hinv w (hmem w hw)
    have hmap := mapO_eq_map _ _ (t0 :: ts) hrow
    rw [hmap]
    have htt1 : ∀ r ∈ (t0 :: ts).map (singleRowEntry st D), torchTensor1 r =
        some ((1 :: [D] : List ℕ), (r.headD ([], [])).2) := by
      intro r hr
      rcases List.mem_map.mp hr with ⟨t, _, rfl⟩
      simp [torchTensor1, singleRowEntry]
    have hmapo1 := mapO_eq_map _ _ ((t0 :: ts).map (singleRowEntry st D)) htt1
    rw [List.map_cons] at hmapo1 ⊢
    dsimp only [Option.some_bind]
    rw [torchTensor2]
    have hcond1 : ((singleRowEntry st D t0 :: ts.map (singleRowEntry st D)).all
        (fun r => r.length = (singleRowEntry st D t0).length)) = true := by
      rw [List.all_eq_true]
      intro r hr
      rcases List.mem_cons.mp hr with rfl | hr
      · simp
      · rcases List.mem_map.mp hr with ⟨t, _, rfl⟩
        simp [singleRowEntry]
    rw [if_pos hcond1, hmapo1]
    dsimp only [Option.some_bind]
    rw [List.map_cons]
    rw [stackShapes]
    have hcond2 : ((((1 :: [D] : List ℕ),
        ((singleRowEntry st D t0).headD ([], [])).2) ::
        (ts.map (singleRowEntry st D)).map
          (fun r => ((1 :: [D] : List ℕ), (r.headD ([], [])).2))).all
        (fun t => t.1 == (((1 :: [D] : List ℕ),
          ((singleRowEntry st D t0).headD ([], [])).2)).1)) = true := by
      rw [List.all_eq_true]
      intro x hx
      rcases List.mem_cons.mp hx with rfl | hx
      · simp
      · rcases List.mem_map.mp hx with ⟨r, _, rfl⟩
        simp
    rw [if_pos hcond2]
    refine ⟨(((([1, D] : List ℕ), ((singleRowEntry st D t0).headD ([], [])).2) ::
      List.map (fun r => (([1, D] : List ℕ), (r.headD ([], [])).2))
        (List.map (singleRowEntry st D) ts)).map (fun t => t.2)).flatten, ?_⟩
    simp

theorem laserPost_shape (B D : ℕ) (data : Vec) (hB : 2 ≤ B) (hD : 1 < D) :
    laserPost ((B :: 1 :: [D] : List ℕ), data) = (([1, B, D] : List ℕ), data) := by
  have hB1 : ¬ (B = 1) := by omega
  have hD1 : ¬ (D = 1) := by omega
  unfold laserPost
  simp [List.filter, hB1, hD1]

theorem laserForward_out (embedder : String → Vec)
    (tok : String → List String) (D : ℕ) (st : LaserState) (s : String)
    (ss : List String) :
    (laserForward embedder tok D st (s :: ss) false).2.2 =
      ((mapO (laserSentenceEntries
          (laserGrow embedder st ((tokenized tok (s :: ss)).flatten)).1 D
          (maxLenOf (tokenized tok (s :: ss)))) (tokenized tok (s :: ss))).bind
        torchTensor2).map
        (fun t => (laserPost t, (tokenized tok (s :: ss)).map List.length)) :=
  rfl

/-- Claim C9: in the LASER backend with `mean_sequence=False`, a batch
of at least two sentences in which every sentence tokenizes to exactly
one token yields a tensor of shape `[1, batch_size, embedding_dim]` —
`squeeze()` collapses the length-1 sequence dimension and the
`len(shape) < 3` fix-up re-adds a *leading* dimension — rather than the
`[batch_size, 1, embedding_dim]` a caller would expect. -/
theorem laser_single_token_batch_shape (embedder : String → Vec)
    (tok : String → List String) (D : ℕ) (st : LaserState)
    (sentences : List String)
    (hB : 2 ≤ sentences.length)
    (h1 : ∀ s ∈ sentences, (tok (lowercase s)).length = 1)
    (hinv : LaserInv D st)
    (hedim : ∀ x, (embedder x).length = D)
    (hD : 1 < D) :
    ∃ data lengths,
      (laserForward embedder tok D st sentences false).2.2 =
        some ((([1, sentences.length, D] : List ℕ), data), lengths) := by
  cases sentences with
  | nil => simp at hB
  | cons s0 srest =>
    rw [laserForward_out]
    have hgrow := laserGrow_inv embedder D hedim
      ((tokenized tok (s0 :: srest)).flatten) st hinv
    have h1' : ∀ t ∈ tokenized tok (s0 :: srest), t.length = 1 := by
      intro t ht
      rcases List.mem_map.mp ht with ⟨s, hs, rfl⟩
      exact h1 s hs
    rcases laser_tensor_shape
      (laserGrow embedder st ((tokenized tok (s0 :: srest)).flatten)).1 D
      hgrow.1 (tokenized tok (s0 :: srest)) (by simp [tokenized])
      h1' hgrow.2 with ⟨data, hdata⟩
    rw [hdata]
    have hlen : (tokenized tok (s0 :: srest)).length = (s0 :: srest).length := by
      simp [tokenized]
    rw [hlen] at hdata ⊢
    dsimp only [Option.map_some']
    rw [laserPost_shape (s0 :: srest).length D data hB hD]
    exact ⟨data, (tokenized tok (s0 :: srest)).map List.length, rfl⟩

/-- Concrete instance of C9: two one-token sentences with a
2-dimensional embedder produce a tensor of shape `[1, 2, 2]`, not
`[2, 1, 2]`. -/
theorem laser_single_token_batch_shape_witness :
    ∃ data lengths,
      (laserForward (fun x => [((x.length : ℕ) : ℚ), 1]) pySplit 2
          ⟨[], []⟩ ["hi", "yo"] false).2.2 =
        some ((([1, (["hi", "yo"] : List String).length, 2] : List ℕ),
          data), lengths) :=
  laser_single_token_batch_shape (fun x => [((x.length : ℕ) : ℚ), 1]) pySplit
    2 ⟨[], []⟩ ["hi", "yo"] (by decide) (by decide)
    ⟨rfl, fun p hp => absurd hp (List.not_mem_nil p),
      fun v hv => absurd hv (List.not_mem_nil v)⟩
    (fun x => rfl) (by decide)

/-! ## Claim C2 -/

theorem dictGet?_map_overwrite (k : String) (v : ℕ) :
    ∀ d : List (String × ℕ), d.any (fun p => p.1 == k) = true →
      dictGet? (d.map (fun p => if p.1 == k then (k, v) else p)) k = some v := by
  intro d
  induction d with
  | nil =>
    intro h
    simp at h
  | cons p ps ih =>
    intro h
    rw [List.map_cons]
    by_cases hp : (p.1 == k) = true
    · rw [if_pos hp]
      unfold dictGet?
      rw [List.find?_cons]
      simp
    · rw [if_neg hp]
      have hfalse : (p.1 == k) = false := by
        cases hb : (p.1 == k) with
        | true => exact absurd hb hp
        | false => rfl
      have htail : ps.any (fun q => q.1 == k) = true := by
        rw [List.any_cons] at h
        simpa [hfalse] using h
      have hrec := ih htail
      unfold dictGet? at hrec ⊢
      rw [List.find?_cons]
      rw [hfalse]
      exact hrec

theorem dictGet?_insert_self (d : List (String × ℕ)) (k : String) (v : ℕ) :
    dictGet? (dictInsert d k v) k = some v := by
  unfold dictInsert
  by_cases h : d.any (fun p => p.1 == k) = true
  · rw [if_pos h]
    exact dictGet?_map_overwrite k v d h
  · rw [if_neg h]
    apply dictGet?_append_sing_self
    unfold dictGet?
    rw [List.find?_eq_none.mpr]
    · rfl
    · intro p hp hpk
      exact h (List.any_eq_true.mpr ⟨p, hp, hpk⟩)

theorem dictGet?_insert_ne (d : List (String × ℕ)) (k k' : String) (v : ℕ)
    (hne : ¬ (k' = k)) :
    dictGet? (dictInsert d k v) k' = dictGet? d k' := by
  have hkk' : (k == k') = false :=
    beq_eq_false_iff_ne.mpr (fun hh => hne hh.symm)
  unfold dictInsert
  by_cases h : d.any (fun p => p.1 == k) = true
  · rw [if_pos h]
    clear h
    induction d with
    | nil => rfl
    | cons p ps ih =>
      rw [List.map_cons]
      by_cases hp : (p.1 == k) = true
      · rw [if_pos hp]
        have hpk : p.1 = k := beq_iff_eq.mp hp
        have h2 : (p.1 == k') = false := by
          rw [hpk]
          exact hkk'
        unfold dictGet?
        rw [List.find?_cons, List.find?_cons]
        dsimp only
        rw [hkk', h2]
        exact ih
      · rw [if_neg hp]
        unfold dictGet?
        rw [List.find?_cons, List.find?_cons]
        cases hq : (p.1 == k') with
        | true => rfl
        | false => exact ih
  · rw [if_neg h]
    unfold dictGet?
    rw [List.find?_append]
    cases hf : d.find? (fun p => p.1 == k') with
    | some p => rfl
    | none =>
      dsimp [Option.or]
      rw [List.find?_cons]
      dsimp only
      rw [hkk']
      rfl

theorem dictGet?_mem_bound (w2i : List (String × ℕ)) (token : String)
    (i : ℕ) (h : dictGet? w2i token = some i) (idx : ℕ)
    (hbound : ∀ p ∈ w2i, p.2 < idx) : i < idx := by
  unfold dictGet? at h
  cases hf : w2i.find? (fun p => p.1 == token) with
  | none => rw [hf] at h; cases h
  | some p =>
    rw [hf] at h
    injection h with h
    rw [← h]
    exact hbound p (List.mem_of_find?_eq_some hf)

theorem gloveLoadAux_preserves :
    ∀ (lines : List String) (idx : ℕ) (w2i : List (String × ℕ)) (vecs : Mat)
      (res : List (String × ℕ) × Mat),
      gloveLoadAux idx w2i vecs lines = some res →
      ∀ (token : String) (i : ℕ),
        dictGet? w2i token = some i → dictGet? res.1 token = some i := by
  intro lines
  induction lines with
  | nil =>
    intro idx w2i vecs res h token i hi
    rw [gloveLoadAux] at h
    injection h with h
    have h1 : w2i = res.1 := congrArg (fun p => p.1) h
    rw [← h1]
    exact hi
  | cons linee rest ih =>
    intro idx w2i vecs res h token i hi
    rw [gloveLoadAux] at h
    cases hsplit : pySplit linee with
    | nil => rw [hsplit] at h; cases h
    | cons tok0 vstrs =>
      rw [hsplit, gloveLine] at h
      by_cases hcond : vstrs.length = 300 ∧ dictGet? w2i tok0 = none
      · rw [if_pos hcond] at h
        cases hparse : mapO parseFloat vstrs with
        | none => rw [hparse] at h; cases h
        | some v =>
          rw [hparse] at h
          dsimp at h
          exact ih _ _ _ _ h token i (dictGet?_append_left _ _ _ _ hi)
      · rw [if_neg hcond] at h
        dsimp at h
        exact ih _ _ _ _ h token i hi

theorem gloveLoadAux_first_occ :
    ∀ (lines : List String) (idx : ℕ) (w2i : List (String × ℕ)) (vecs : Mat)
      (res : List (String × ℕ) × Mat),
      gloveLoadAux idx w2i vecs lines = some res →
      ∀ (token linee : String) (j : ℕ),
        lines.get? j = some linee →
        (pySplit linee).head? = some token →
        (pySplit linee).length = 301 →
        (∀ p ∈ w2i, p.2 < idx) →
        ∃ i, dictGet? res.1 token = some i ∧ i ≤ idx + j := by
  intro lines
  induction lines with
  | nil =>
    intro idx w2i vecs res h token linee j hj
    simp at hj
  | cons l0 rest ih =>
    intro idx w2i vecs res h token linee j hj hhead hlen hbound
    cases j with
    | zero =>
      have hl : l0 = linee := by simpa using hj
      subst hl
      cases hsplit : pySplit l0 with
      | nil => rw [hsplit] at hhead; cases hhead
      | cons tok0 vstrs =>
        have htok : tok0 = token := by
          rw [hsplit] at hhead
          simpa using hhead
        subst htok
        have hv300 : vstrs.length = 300 := by
          rw [hsplit] at hlen
          simpa using hlen
        rw [gloveLoadAux, hsplit, gloveLine] at h
        by_cases hpres : dictGet? w2i tok0 = none
        · rw [if_pos ⟨hv300, hpres⟩] at h
          cases hparse : mapO parseFloat vstrs with
          | none => rw [hparse] at h; cases h
          | some v =>
            rw [hparse] at h
            dsimp at h
            have hins : dictGet? (w2i ++ [(tok0, idx)]) tok0 = some idx :=
              dictGet?_append_sing_self _ _ _ hpres
            have hkeep := gloveLoadAux_preserves rest _ _ _ _ h tok0 idx hins
            exact ⟨idx, hkeep, by omega⟩
        · rcases Option.ne_none_iff_exists'.mp hpres with ⟨i0, hi0⟩
          have hlt : i0 < idx := dictGet?_mem_bound w2i tok0 i0 hi0 idx hbound
          have hcondfalse :
              ¬ (vstrs.length = 300 ∧ dictGet? w2i tok0 = none) := by
            intro hc
            rw [hi0] at hc
            cases hc.2
          rw [if_neg hcondfalse] at h
          dsimp at h
          have hkeep := gloveLoadAux_preserves rest _ _ _ _ h tok0 i0 hi0
          exact ⟨i0, hkeep, by omega⟩
    | succ j' =>
      have hj' : rest.get? j' = some linee := by simpa using hj
      rw [gloveLoadAux] at h
      cases hsplit : pySplit l0 with
      | nil => rw [hsplit] at h; cases h
      | cons tok0 vstrs =>
        rw [hsplit, gloveLine] at h
        by_cases hcond : vstrs.length = 300 ∧ dictGet? w2i tok0 = none
        · rw [if_pos hcond] at h
          cases hparse : mapO parseFloat vstrs with
          | none => rw [hparse] at h; cases h
          | some v =>
            rw [hparse] at h
            dsimp at h
            have hbound' : ∀ p ∈ w2i ++ [(tok0, idx)], p.2 < idx + 1 := by
              intro p hp
              rcases List.mem_append.mp hp with hp | hp
              · have := hbound p hp
                omega
              · simp at hp
                subst hp
                simp
            rcases ih (idx + 1) _ _ _ h token linee j' hj' hhead hlen hbound'
              with ⟨i, hi, hle⟩
            exact ⟨i, hi, by omega⟩
        · rw [if_neg hcond] at h
          dsimp at h
          rcases ih (idx + 1) _ _ _ h token linee j' hj' hhead hlen
            (fun p hp => by have := hbound p hp; omega) with ⟨i, hi, hle⟩
          exact ⟨i, hi, by omega⟩

def dupLines : List String :=
  [String.intercalate " " ("cat" :: List.replicate 300 "0"),
   String.intercalate " " ("cat" :: List.replicate 300 "1"),
   String.intercalate " " ("dog" :: List.replicate 300 "0")]

/-- Counterexample to C2 as stated: on a file whose second line
duplicates the token `cat`, the duplicate line is skipped but the
line counter still advances, so `dog` (line 3) is assigned index 3
while the matrix has only the 3 rows `0..2` — row `i` of the matrix is
not the vector of the token mapped to index `i`, and `dog`'s index has
no row at all. -/
theorem glove_row_correspondence_cex :
    (gloveInit dupLines).map (fun S =>
      (dictGet? S.word2idx "dog", S.num_embeddings, S.vectors.length)) =
      some (some 3, 3, 3) := by decide

/-- Claim C2 (amended): whenever the constructor succeeds, the backing
matrix has exactly `num_embeddings` rows, `word2idx` maps
`'<unknown>'` to index 0, row 0 of the matrix is the zero vector of
width `embedding_dim`, and a token whose line `j+1` is eligible (head
field `token`, exactly 300 vector fields) is mapped to an index of at
most `j+1` — i.e. duplicate tokens keep the first occurrence.  The
row-index correspondence of the original claim is dropped: assigned
indices are 1-based line numbers that skip dropped lines (see the
counterexample). -/
theorem glove_invariants (lines : List String) (S : GloveState)
    (h : gloveInit lines = some S) :
    S.vectors.length = S.num_embeddings ∧
    dictGet? S.word2idx "<unknown>" = some 0 ∧
    S.vectors.get? 0 = some (zeroVec S.embedding_dim) ∧
    (∀ (token linee : String) (j : ℕ), lines.get? j = some linee →
      (pySplit linee).head? = some token →
      (pySplit linee).length = 301 →
      ∃ i, dictGet? S.word2idx token = some i ∧ i ≤ 1 + j) := by
  unfold gloveInit at h
  cases hload : gloveLoadAux 1 [] [] lines with
  | none => rw [hload] at h; cases h
  | some lw =>
    rw [hload] at h
    rw [Option.some_bind] at h
    cases hh : lw.2.head? with
    | none => rw [hh] at h; cases h
    | some v0 =>
      rw [hh, Option.some_bind] at h
      by_cases hguard : (zeroVec v0.length :: lw.2).length =
          (dictInsert lw.1 "<unknown>" 0).length ∧
          (zeroVec v0.length :: lw.2).all (fun v => v.length = v0.length)
      · rw [if_pos hguard] at h
        injection h with h
        subst h
        refine ⟨hguard.1, dictGet?_insert_self lw.1 "<unknown>" 0, rfl, ?_⟩
        intro token linee j hj hhead hlen
        rcases gloveLoadAux_first_occ lines 1 [] [] lw hload token linee j hj
          hhead hlen (fun p hp => absurd hp (List.not_mem_nil p)) with
          ⟨i, hi, hle⟩
        by_cases hu : token = "<unknown>"
        · subst hu
          exact ⟨0, dictGet?_insert_self lw.1 "<unknown>" 0, by omega⟩
        · refine ⟨i, ?_, by omega⟩
          rw [dictGet?_insert_ne lw.1 "<unknown>" token 0 hu]
          exact hi
      · rw [if_neg hguard] at h
        cases h

/-- Concrete instance of the amended C2 on the duplicate-token file:
construction succeeds, the matrix has `num_embeddings` rows, index 0 is
the unknown token with the zero row, and the token `cat` of line 1 is
mapped to an index at most 1 (the first occurrence). -/
theorem glove_invariants_witness :
    ∃ S, gloveInit dupLines = some S ∧
      S.vectors.length = S.num_embeddings ∧
      dictGet? S.word2idx "<unknown>" = some 0 ∧
      S.vectors.get? 0 = some (zeroVec S.embedding_dim) ∧
      (∃ i, dictGet? S.word2idx "cat" = some i ∧ i ≤ 1) := by
  obtain ⟨S, hS⟩ := Option.isSome_iff_exists.mp
    (by decide : (gloveInit dupLines).isSome = true)
  have hinv := glove_invariants dupLines S hS
  refine ⟨S, hS, hinv.1, hinv.2.1, hinv.2.2.1, ?_⟩
  rcases hinv.2.2.2 "cat" (String.intercalate " "
      ("cat" :: List.replicate 300 "0")) 0 (by rfl) (by decide) (by decide)
    with ⟨i, hi, hle⟩
  exact ⟨i, hi, by omega⟩
